import Mathlib

/-!
# HD wallet (BIP-39 / BIP-32) — verification of the key derivation core

Shallow embedding of the Go packages `mnemonic` (01-mnemonic) and `key`
(02-key_derivation).

Conventions of the embedding
* a Go `[]byte` is a `List Byte` (`Byte = Fin 256`); a slice that may be `nil`
  is an `Option (List Byte)`;
* a pointer that may be `nil` is an `Option`;
* a `*big.Int` holding a non-negative value is a `Nat`;
* a `uint32` is a `Nat` reduced `% 2^32` where Go would wrap, a `uint8` is a
  `Nat` reduced `% 2^8`;
* a Go function returning `(T, error)` is an `Except Error T`; a run-time panic
  is the distinguished value `Error.panic _`;
* the library primitives the repository imports (HMAC-SHA512, PBKDF2, the
  secp256k1 group operations of `btcec`) are parameters, gathered in
  `Primitives`.
-/

namespace HDWallet

/-- One octet. -/
abbrev Byte := Fin 256

/-- Run-time panics the embedded code can raise. -/
inductive Panic where
  /-- Panic raised by `big.Int.FillBytes`: buffer too small to fit value. -/
  | bufferTooSmall
  /-- Panic raised on an index or slice bound out of range. -/
  | indexOutOfRange
  /-- Panic raised on a nil pointer dereference. -/
  | nilDereference
  deriving DecidableEq, Repr

/-- Errors returned by the embedded code, one constructor per `errors.New`
message (quoted), plus the `strconv` errors and the panics. -/
inductive Error where
  /-- Message "Invalid private key value: private key is nil". -/
  | privateKeyNil
  /-- Message "Invalid private key length: must be 32 bytes". -/
  | privateKeyLength
  /-- Message "Invalid private key value: must be at least 10". -/
  | privateKeyValue
  /-- Message "Invalid coordinates: x or y is nil". -/
  | coordNil
  /-- Message "Invalid point: point at infinity". -/
  | pointAtInfinity
  /-- Message "Invalid private key length: must be 33 or 65 bytes" (public key codec). -/
  | publicKeyLength
  /-- Message "Invalid public key prefix: must be 0x02, 0x03 or 0x04". -/
  | publicKeyPrefix
  /-- Message "Invalid index range: index exceeds maximum value 0x7fffffff". -/
  | indexRange
  /-- Message "Invalid index value: should proceed with the next value for index". -/
  | indexValue
  /-- Message "Public hardened key cannot be derived from the public key.". -/
  | hardenedFromPublic
  /-- Message "Follow bip-44 standards derivation path.". -/
  | invalidPath
  /-- The `strconv.ErrSyntax` error of `strconv.ParseInt`. -/
  | parseSyntax
  /-- The `strconv.ErrRange` error of `strconv.ParseInt`. -/
  | parseRange
  /-- Message "Invalid address length: must be 42 characters". -/
  | addressLength
  /-- Message "Invalid address: must be start with 0x". -/
  | addressPrefix
  /-- Message "Invalid length: must be either 128 or 256". -/
  | entropyLength
  /-- The error returned by `rand.Read`. -/
  | randomSource
  /-- The error returned by `getWord`. -/
  | wordIndex
  /-- A run-time panic (not a returned error). -/
  | panic (p : Panic)
  deriving DecidableEq, Repr

deriving instance DecidableEq for Except

/-- Whether an outcome is a run-time panic rather than a returned error. -/
def Error.isPanic : Error → Bool
  | .panic _ => true
  | _ => false

/-! ## `math/big` and `encoding/binary` helpers -/

/-- Value of `new(big.Int).SetBytes(b)`: the big-endian unsigned value of `b`. -/
def SetBytes (b : List Byte) : Nat :=
  b.foldl (fun acc x => acc * 256 + x.val) 0

/-- The `size` low-order base-256 digits of `v`, most significant first. -/
def bigEndian : Nat → Nat → List Byte
  | 0, _ => []
  | size + 1, v => bigEndian size (v / 256) ++ [⟨v % 256, Nat.mod_lt _ (by decide)⟩]

/-- Result of `v.FillBytes(make([]byte, size))`: the big-endian value of `v`
left-padded with zeros to `size` bytes; panics when `v` does not fit. -/
def FillBytes (v : Nat) (size : Nat) : Except Error (List Byte) :=
  if v < 256 ^ size then .ok (bigEndian size v) else .error (.panic .bufferTooSmall)

/-- Result of `binary.BigEndian.Uint32(b)`: reads the first four bytes of `b`. -/
def Uint32 (b : List Byte) : Except Error Nat :=
  match b with
  | b0 :: b1 :: b2 :: b3 :: _ =>
    .ok (b0.val * 2 ^ 24 + b1.val * 2 ^ 16 + b2.val * 2 ^ 8 + b3.val)
  | _ => .error (.panic .indexOutOfRange)

/-- Bytes written by `binary.BigEndian.PutUint32(_, v)`. -/
def PutUint32 (v : Nat) : List Byte := bigEndian 4 (v % 2 ^ 32)

/-- Result of the builtin `copy(dst[off:], src)`: overwrites `dst` from offset
`off` with as many bytes of `src` as fit. -/
def copyAt (dst : List Byte) (off : Nat) (src : List Byte) : List Byte :=
  dst.take off ++ (src.take (dst.length - off) ++ dst.drop (off + src.length))

/-- Result of `make([]byte, size)`. -/
def make (size : Nat) : List Byte := List.replicate size 0

/-- Bit 0 of a non-negative big integer (`y.Bit(0)`). -/
def Bit0 (y : Nat) : Nat := y % 2

/-! ## Library primitives -/

/-- The primitives imported from outside the repository: `crypto/hmac` with
`sha512.New`, `pbkdf2.Key` with `sha512.New`, and the secp256k1 operations
`btcec.S256().ScalarBaseMult` and `btcec.S256().Add`. An HMAC-SHA512 tag is
always 64 bytes long. -/
structure Primitives where
  /-- Tag `hmac.New(sha512.New, key)` produces over `data`. -/
  hmacSha512 : (key : List Byte) → (data : List Byte) → List Byte
  /-- An HMAC-SHA512 tag has `sha512.Size` = 64 bytes. -/
  hmacSha512_length : ∀ key data, (hmacSha512 key data).length = 64
  /-- Function `pbkdf2.Key(password, salt, iter, keyLen, sha512.New)`. -/
  pbkdf2Sha512 : (password salt : List Byte) → (iter keyLen : Nat) → List Byte
  /-- Function `curve.ScalarBaseMult(k)`: coordinates of `k·G`. -/
  ScalarBaseMult : (k : List Byte) → Nat × Nat
  /-- Function `curve.Add(x1, y1, x2, y2)`. -/
  Add : (x1 y1 x2 y2 : Nat) → Nat × Nat

/-! ## Package `key`: public keys -/

/-- Constant `compressedPublicKeySize`. -/
def compressedPublicKeySize : Nat := 33
/-- Constant `unCompressedPublicKeySize`. -/
def unCompressedPublicKeySize : Nat := 65

/-- The Go struct `PublicKey` (coordinates non-nil and non-negative). -/
structure PublicKey where
  x : Nat
  y : Nat
  compressed : List Byte
  unCompressed : List Byte
  deriving DecidableEq, Repr

/-- Function `ValidatePublicKeyCoord(x, y)`. -/
def ValidatePublicKeyCoord (x y : Option Nat) : Except Error Unit :=
  match x, y with
  | some x, some y =>
    if x = 0 ∧ y = 0 then .error .pointAtInfinity else .ok ()
  | _, _ => .error .coordNil

/-- Function `NewPublicKey(x, y)`. -/
def NewPublicKey (x y : Option Nat) : Except Error PublicKey := do
  ValidatePublicKeyCoord x y
  match x, y with
  | some x, some y =>
    let pre : Byte := if Bit0 y = 1 then 0x03 else 0x02
    let compressedPublicKey := make compressedPublicKeySize
    let compressedPublicKey := compressedPublicKey.set 0 pre
    let xb ← FillBytes x 32
    let compressedPublicKey := copyAt compressedPublicKey 1 xb
    let unCompressedPublicKey := make unCompressedPublicKeySize
    let unCompressedPublicKey := unCompressedPublicKey.set 0 0x04
    let xb ← FillBytes x 32
    let unCompressedPublicKey := copyAt unCompressedPublicKey 1 xb
    let yb ← FillBytes y 32
    let unCompressedPublicKey := copyAt unCompressedPublicKey 33 yb
    pure ⟨x, y, compressedPublicKey, unCompressedPublicKey⟩
  | _, _ => .error (.panic .nilDereference)

/-- Method `(*PublicKey).Serialize`. -/
def PublicKey.Serialize (k : PublicKey) : List Byte := k.compressed

/-- Method `(*PublicKey).SerializeUnCompressed`. -/
def PublicKey.SerializeUnCompressed (k : PublicKey) : List Byte := k.unCompressed

/-! ## Package `key`: private keys -/

/-- Constant `privateKeySize`. -/
def privateKeySize : Nat := 32

/-- The Go struct `PrivateKey` (`D` non-nil and non-negative; `pubKey` may be nil). -/
structure PrivateKey where
  pubKey : Option PublicKey
  D : Nat
  deriving DecidableEq, Repr

/-- Function `ValidatePrivateKeyByte(privateKeyByte)`. -/
def ValidatePrivateKeyByte (privateKeyByte : Option (List Byte)) : Except Error Unit :=
  match privateKeyByte with
  | none => .error .privateKeyNil
  | some b =>
    if b.length ≠ privateKeySize then .error .privateKeyLength
    else do
      let w ← Uint32 b
      if w = 0 then .error .privateKeyValue else .ok ()

/-- Function `PrivateKeyFromByte(privateKeyByte)`. -/
def PrivateKeyFromByte (P : Primitives) (privateKeyByte : Option (List Byte)) :
    Except Error PrivateKey := do
  ValidatePrivateKeyByte privateKeyByte
  match privateKeyByte with
  | none => .error (.panic .nilDereference)
  | some b =>
    let D := SetBytes b
    let k ← FillBytes D privateKeySize
    let xy := P.ScalarBaseMult k
    let compressedPublicKey ← NewPublicKey (some xy.1) (some xy.2)
    pure ⟨some compressedPublicKey, D⟩

/-- Method `(*PrivateKey).Serialize`. -/
def PrivateKey.Serialize (k : PrivateKey) : Except Error (List Byte) :=
  FillBytes k.D privateKeySize

/-- Method `(*PrivateKey).PublicKey`. -/
def PrivateKey.PublicKey (k : PrivateKey) : Option PublicKey := k.pubKey

/-! ## Package `key`: child key derivation -/

/-- Constant `HardenedOffset` = 0x80000000. -/
def HardenedOffset : Nat := 0x80000000

/-- Order `n` of the secp256k1 group. -/
def n : Nat := 0xFFFFFFFFFFFFFFFFFFFFFFFFFFFFFFFEBAAEDCE6AF48A03BBFD25E8CD0364141

/-- Bytes of an ASCII string literal (`[]byte("...")`). -/
def asciiBytes (s : String) : List Byte :=
  s.toList.map fun c => ⟨c.toNat % 256, Nat.mod_lt _ (by decide)⟩

/-- Variable `masterKeyString`. -/
def masterKeyString : List Byte := asciiBytes "Bitcoin seed"

/-- Function `GenerateHardenedKeyData(privateKeyByte, index)`. -/
def GenerateHardenedKeyData (privateKeyByte : List Byte) (index : Nat) : List Byte :=
  let data := make 37
  let data := data.set 0 0x00
  let data := copyAt data 1 privateKeyByte
  copyAt data 33 (PutUint32 index)

/-- Function `GenerateNormalKeyData(publicKeyByte, index)`. -/
def GenerateNormalKeyData (publicKeyByte : List Byte) (index : Nat) : List Byte :=
  let data := make 37
  let data := copyAt data 0 publicKeyByte
  copyAt data 33 (PutUint32 index)

/-- Function `DerivePublicKey(parentPublicKey, parentChainCode, index)`. -/
def DerivePublicKey (P : Primitives) (parentPublicKey : Option PublicKey)
    (parentChainCode : List Byte) (index : Nat) : Except Error (PublicKey × List Byte) :=
  if index ≥ HardenedOffset then .error .indexRange
  else
    match parentPublicKey with
    | none => .error (.panic .nilDereference)
    | some parent => do
      let data := GenerateNormalKeyData parent.Serialize index
      let I := P.hmacSha512 parentChainCode data
      let IL := I.take 32
      let IR := I.drop 32
      let ILInt := SetBytes IL
      if ILInt ≥ n then .error .indexValue
      else do
        let k ← FillBytes ILInt privateKeySize
        let xy := P.ScalarBaseMult k
        let childKey := P.Add parent.x parent.y xy.1 xy.2
        match ValidatePublicKeyCoord (some childKey.1) (some childKey.2) with
        | .error _ => .error .indexValue
        | .ok _ => do
          let childPublicKey ← NewPublicKey (some childKey.1) (some childKey.2)
          pure (childPublicKey, IR)

/-- Function `DerivePrivateKey(parentPrivateKey, parentChainCode, index)`. -/
def DerivePrivateKey (P : Primitives) (parentPrivateKey : Option PrivateKey)
    (parentChainCode : List Byte) (index : Nat) : Except Error (PrivateKey × List Byte) :=
  match parentPrivateKey with
  | none => .error (.panic .nilDereference)
  | some parent => do
    let data ←
      if index ≥ HardenedOffset then do
        let s ← parent.Serialize
        pure (GenerateHardenedKeyData s index)
      else
        match parent.PublicKey with
        | none => .error (.panic .nilDereference)
        | some pk => pure (GenerateNormalKeyData pk.Serialize index)
    let I := P.hmacSha512 parentChainCode data
    let IL := I.take 32
    let IR := I.drop 32
    let ILInt := SetBytes IL
    if ILInt ≥ n then .error .indexValue
    else
      let childKeyInt := (parent.D + ILInt) % n
      if childKeyInt = 0 then .error .indexValue
      else do
        let b ← FillBytes childKeyInt privateKeySize
        let childPrivateKey ← PrivateKeyFromByte P (some b)
        pure (childPrivateKey, IR)

/-! ## Package `key`: extended keys -/

/-- The Go struct `ExtendedKey`. -/
structure ExtendedKey where
  privKey : Option PrivateKey
  pubKey : Option PublicKey
  chainCode : List Byte
  depth : Nat
  isPrivate : Bool
  deriving DecidableEq, Repr

/-- Function `NewMasterFromSeed(seed)`. -/
def NewMasterFromSeed (P : Primitives) (seed : List Byte) : Except Error ExtendedKey := do
  let h512 := P.hmacSha512 masterKeyString seed
  let masterPrivateKeyByte := h512.take (h512.length / 2)
  let masterChainCodeByte := h512.drop (h512.length / 2)
  let masterPrivateKey ← PrivateKeyFromByte P (some masterPrivateKeyByte)
  pure ⟨some masterPrivateKey, none, masterChainCodeByte, 0, true⟩

/-- Method `(*ExtendedKey).Derive(index)`; `depth` is a `uint8`. -/
def ExtendedKey.Derive (P : Primitives) (e : ExtendedKey) (index : Nat) :
    Except Error ExtendedKey :=
  if e.isPrivate then do
    let (childPrivateKey, childChainCode) ← DerivePrivateKey P e.privKey e.chainCode index
    pure ⟨some childPrivateKey, none, childChainCode, (e.depth + 1) % 2 ^ 8, true⟩
  else
    if index ≥ HardenedOffset then .error .hardenedFromPublic
    else do
      let (childPublicKey, childChainCode) ← DerivePublicKey P e.pubKey e.chainCode index
      pure ⟨none, some childPublicKey, childChainCode, (e.depth + 1) % 2 ^ 8, false⟩

/-! ## `strings` and `strconv` helpers -/

/-- Result of `strings.Split(s, "/")`. -/
def Split : List Char → List (List Char)
  | [] => [[]]
  | c :: cs =>
    if c = '/' then [] :: Split cs
    else
      match Split cs with
      | [] => [[c]]
      | h :: t => (c :: h) :: t

/-- Value of a decimal digit, if the character is one. -/
def digitVal (c : Char) : Option Nat :=
  if '0'.toNat ≤ c.toNat ∧ c.toNat ≤ '9'.toNat then some (c.toNat - '0'.toNat) else none

/-- Digit loop of `strconv.ParseUint(s, 10, 64)`. -/
def parseUintLoop : List Char → Nat → Except Error Nat
  | [], acc => .ok acc
  | c :: cs, acc =>
    match digitVal c with
    | none => .error .parseSyntax
    | some d =>
      if acc * 10 + d ≥ 2 ^ 64 then .error .parseRange else parseUintLoop cs (acc * 10 + d)

/-- Result of `strconv.ParseInt(s, 10, 64)`. -/
def ParseInt (s : List Char) : Except Error Int :=
  match s with
  | [] => .error .parseSyntax
  | c :: cs =>
    let neg := c = '-'
    let body := if c = '+' ∨ c = '-' then cs else s
    match body with
    | [] => .error .parseSyntax
    | _ =>
      match parseUintLoop body 0 with
      | .error e => .error e
      | .ok un =>
        if ¬ neg ∧ un ≥ 2 ^ 63 then .error .parseRange
        else if neg ∧ un > 2 ^ 63 then .error .parseRange
        else .ok (if neg then - (un : Int) else (un : Int))

/-- Conversion `uint32(v)` of an `int64`. -/
def uint32 (v : Int) : Nat := (v % 2 ^ 32).toNat

/-- Body of the `for _, p := range paths[1:]` loop of `DerivePath`. -/
def derivePathLoop (P : Primitives) : ExtendedKey → List (List Char) → Except Error ExtendedKey
  | key, [] => .ok key
  | key, p :: ps =>
    match p with
    | [] => .error (.panic .indexOutOfRange)
    | p0 :: rest => do
      let pUint64 ← ParseInt [p0]
      let index :=
        if (p0 :: rest).getLast (List.cons_ne_nil p0 rest) = '\'' then
          (uint32 pUint64 + HardenedOffset) % 2 ^ 32
        else uint32 pUint64
      let key ← key.Derive P index
      derivePathLoop P key ps

/-- Method `(*ExtendedKey).DerivePath(path)`. -/
def ExtendedKey.DerivePath (P : Primitives) (e : ExtendedKey) (path : List Char) :
    Except Error ExtendedKey :=
  match Split path with
  | [] => .error (.panic .indexOutOfRange)
  | first :: rest =>
    if first ≠ ['m'] then .error .invalidPath
    else derivePathLoop P e rest

/-! ## Package `mnemonic`: seed derivation -/

/-- Function `GenerateMasterSeed(mnemonic, salt)`. -/
def GenerateMasterSeed (P : Primitives) (mnemonic : List Byte) (salt : List Byte) : List Byte :=
  let _ := salt
  let pbkdf2Key := P.pbkdf2Sha512 mnemonic (asciiBytes "mnemonic1234") 2048 64
  pbkdf2Key


/-! ## A small instance of the primitives, used to evaluate the code -/

/-- A stand-in keyed hash: the first 64 bytes of `h key data` followed by zeros. -/
def toyHmac (h : List Byte → List Byte → List Byte) (key data : List Byte) : List Byte :=
  (h key data ++ List.replicate 64 0).take 64

/-- A stand-in instance of the primitives: the keyed hash is `toyHmac h`, the
key-stretching function returns its salt, and the group is the additive group of
integers modulo `n` with generator 1, the element `k` having coordinates
`(k, 0)`, so that the neutral element is `(0, 0)`. -/
def toyPrimitives (h : List Byte → List Byte → List Byte) : Primitives where
  hmacSha512 := toyHmac h
  hmacSha512_length := by intro key data; simp [toyHmac]
  pbkdf2Sha512 := fun _ salt _ _ => salt
  ScalarBaseMult := fun k => (SetBytes k % n, 0)
  Add := fun x1 _ x2 _ => ((x1 + x2) % n, 0)

/-- The public key `NewPublicKey` builds for the point `(x, 0)` of `toyPrimitives`. -/
def toyPublicKey (x : Nat) : PublicKey :=
  ⟨x, 0, 0x02 :: bigEndian 32 x, 0x04 :: (bigEndian 32 x ++ bigEndian 32 0)⟩

/-- The private key with scalar `D` over `toyPrimitives`, as `PrivateKeyFromByte` builds it. -/
def toyPrivateKey (D : Nat) : PrivateKey := ⟨some (toyPublicKey (D % n)), D⟩

/-- An instance of the primitives whose keyed hash always returns the tag
`tag` followed by zeros. -/
def constPrimitives (tag : List Byte) : Primitives := toyPrimitives fun _ _ => tag

/-- An instance of the primitives whose keyed hash returns its input reversed (followed by
zeros, cut to 64 bytes), so that the tag depends on the derivation index. -/
def echoPrimitives : Primitives := toyPrimitives fun _ data => data.reverse

/-- Length of a possibly-nil slice (`len(b)`). -/
def len (b : Option (List Byte)) : Nat := (b.getD []).length

/-! ## Auxiliary definitions used in the statements and proofs -/

/-- The HMAC input `DerivePrivateKey` builds for a parent key and an index. -/
def privateKeyData (parent : PrivateKey) (index : Nat) : Except Error (List Byte) :=
  if index ≥ HardenedOffset then do
    let s ← parent.Serialize
    pure (GenerateHardenedKeyData s index)
  else
    match parent.PublicKey with
    | none => .error (.panic .nilDereference)
    | some pk => pure (GenerateNormalKeyData pk.Serialize index)

/-- The part of `DerivePrivateKey` that follows the construction of the HMAC input. -/
def privateKeyChild (P : Primitives) (parent : PrivateKey) (parentChainCode data : List Byte) :
    Except Error (PrivateKey × List Byte) :=
  let I := P.hmacSha512 parentChainCode data
  let IL := I.take 32
  let IR := I.drop 32
  let ILInt := SetBytes IL
  if ILInt ≥ n then .error .indexValue
  else
    let childKeyInt := (parent.D + ILInt) % n
    if childKeyInt = 0 then .error .indexValue
    else do
      let b ← FillBytes childKeyInt privateKeySize
      let childPrivateKey ← PrivateKeyFromByte P (some b)
      pure (childPrivateKey, IR)

/-! ## Package `key`: public key decoding -/

/-- The two hexadecimal characters `hex.EncodeToString` writes for one byte. -/
def hexByte (b : Byte) : List Char :=
  ["0123456789abcdef".toList.getD (b.val / 16) '0', "0123456789abcdef".toList.getD (b.val % 16) '0']

/-- Result of `hex.EncodeToString(b)`. -/
def hexEncodeToString (b : List Byte) : List Char := b.flatMap hexByte

/-- Function `ValidatePublicKeyByte(publicKeyByte)`. -/
def ValidatePublicKeyByte (publicKeyByte : List Byte) : Except Error Unit :=
  if publicKeyByte.length ≠ 33 ∧ publicKeyByte.length ≠ 65 then .error .publicKeyLength
  else
    let publicKeyhex := hexEncodeToString publicKeyByte
    if publicKeyhex.take 2 ≠ "02".toList ∧ publicKeyhex.take 2 ≠ "03".toList ∧
        publicKeyhex.take 2 ≠ "04".toList then .error .publicKeyPrefix
    else .ok ()

/-- Function `PublicKeyFromByte(publicKeyByte)`. The library function `btcec.ParsePubKey` is the
parameter `ParsePubKey`; it returns the coordinates of the parsed point, or `none` for the nil
key it returns together with an error. The error it returns is never read. -/
def PublicKeyFromByte (ParsePubKey : List Byte → Option (Nat × Nat)) (publicKeyByte : List Byte) :
    Except Error PublicKey := do
  ValidatePublicKeyByte publicKeyByte
  let parsedPublicKey := ParsePubKey publicKeyByte
  match parsedPublicKey with
  | none => .error (.panic .nilDereference)
  | some xy =>
    let x := xy.1
    let y := xy.2
    let pre : Byte := if Bit0 y = 1 then 0x03 else 0x02
    let compressedPublicKey := make compressedPublicKeySize
    let compressedPublicKey := compressedPublicKey.set 0 pre
    let xb ← FillBytes x 32
    let compressedPublicKey := copyAt compressedPublicKey 1 xb
    let unCompressedPublicKey := make unCompressedPublicKeySize
    let unCompressedPublicKey := unCompressedPublicKey.set 0 0x04
    let xb ← FillBytes x 32
    let unCompressedPublicKey := copyAt unCompressedPublicKey 1 xb
    let yb ← FillBytes y 32
    let unCompressedPublicKey := copyAt unCompressedPublicKey 33 yb
    pure ⟨x, y, compressedPublicKey, unCompressedPublicKey⟩

/-- A stand-in for `btcec.ParsePubKey` that applies its format rule only: 33 bytes must start
with `0x02` or `0x03`, 65 bytes with `0x04`; every other buffer is rejected. -/
def formatParsePubKey (b : List Byte) : Option (Nat × Nat) :=
  match b with
  | [] => none
  | p :: rest =>
    if b.length = 33 ∧ (p = 0x02 ∨ p = 0x03) then some (SetBytes rest, p.val % 2)
    else if b.length = 65 ∧ p = 0x04 then some (SetBytes (rest.take 32), SetBytes (rest.drop 32))
    else none

/-! ## Strings

A Go string is modelled by its sequence of code points (a valid UTF-8 string): `len` is the
number of bytes of the UTF-8 encoding, `range` yields byte offsets, and the case mappings of
package `unicode` outside ASCII are parameters. -/

/-- Number of bytes of a string (`len(s)`). -/
def utf8Len : List Char → Nat
  | [] => 0
  | c :: cs => c.utf8Size + utf8Len cs

/-- Bytes of a string (`[]byte(s)`). -/
def utf8Bytes (s : List Char) : List Byte :=
  s.flatMap fun c =>
    (String.utf8EncodeChar c).map fun b => (⟨b.toNat % 256, Nat.mod_lt _ (by decide)⟩ : Byte)

/-- The functions `unicode.ToLower` and `unicode.ToUpper` on code points outside ASCII. -/
structure Unicode where
  ToLower : Char → Char
  ToUpper : Char → Char

/-- The ASCII branch of `unicode.ToLower`: `A`..`Z` move to `a`..`z`. -/
def asciiToLower (r : Char) : Char :=
  if 'A' ≤ r ∧ r ≤ 'Z' then Char.ofNat (r.toNat + ('a'.toNat - 'A'.toNat)) else r

/-- The ASCII branch of `unicode.ToUpper`: `a`..`z` move to `A`..`Z`. -/
def asciiToUpper (r : Char) : Char :=
  if 'a' ≤ r ∧ r ≤ 'z' then Char.ofNat (r.toNat - ('a'.toNat - 'A'.toNat)) else r

/-- Function `unicode.ToLower(r)`. -/
def runeToLower (U : Unicode) (r : Char) : Char :=
  if r.toNat ≤ 0x7F then asciiToLower r else U.ToLower r

/-- Function `unicode.ToUpper(r)`. -/
def runeToUpper (U : Unicode) (r : Char) : Char :=
  if r.toNat ≤ 0x7F then asciiToUpper r else U.ToUpper r

/-- Function `strings.ToLower(s)`. -/
def ToLower (U : Unicode) (s : List Char) : List Char := s.map (runeToLower U)

/-- Function `strings.ToUpper(s)`. -/
def ToUpper (U : Unicode) (s : List Char) : List Char := s.map (runeToUpper U)

/-- Result of the comparison `address[:2] != "0x"`: slicing panics on a string shorter than two
bytes; the first two bytes are `0x` exactly when the first two characters are `0` and `x`. -/
def slice2Ne0x (address : List Char) : Except Error Bool :=
  if utf8Len address < 2 then .error (.panic .indexOutOfRange)
  else .ok (address.take 2 ≠ "0x".toList)

/-! ## Package `address` -/

/-- The hash functions imported by package `address` and package `mnemonic`: `sha256.Sum256`,
`ripemd160`, and `sha3.NewLegacyKeccak256`, with the sizes of their digests. -/
structure Hashes where
  sha256 : List Byte → List Byte
  sha256_length : ∀ d, (sha256 d).length = 32
  ripemd160 : List Byte → List Byte
  ripemd160_length : ∀ d, (ripemd160 d).length = 20
  keccak256 : List Byte → List Byte
  keccak256_length : ∀ d, (keccak256 d).length = 32

/-- Constant `base58Alphabet`. -/
def base58Alphabet : List Char :=
  "123456789ABCDEFGHJKLMNPQRSTUVWXYZabcdefghijkmnopqrstuvwxyz".toList

/-- The loop `for num.Cmp(zero) > 0 { ... }` of `base58Encode`, run for at most `fuel`
iterations; returns the final `num` and `result`. -/
def base58Loop : Nat → Nat → List Char → Nat × List Char
  | 0, num, result => (num, result)
  | fuel + 1, num, result =>
    if num > 0 then
      let mod := num % 58
      let num := num / 58
      base58Loop fuel num (base58Alphabet.getD mod '1' :: result)
    else (num, result)

/-- Function `base58Encode(input)`. Two iterations per input byte are enough for the loop to
reach `num = 0` (`base58Loop_terminates`). -/
def base58Encode (input : List Byte) : List Char :=
  (base58Loop (2 * input.length) (SetBytes input) []).2

/-- Function `ToP2PKHAddress(publicKey, isTestnet)`. -/
def ToP2PKHAddress (H : Hashes) (publicKey : Option PublicKey) (isTestnet : Bool) :
    Except Error (List Char) :=
  match publicKey with
  | none => .error (.panic .nilDereference)
  | some pk =>
    let sha256Hash := H.sha256 pk.SerializeUnCompressed
    let pubKeyHash := H.ripemd160 sha256Hash
    let pre : Byte := if isTestnet then 0x6F else 0x00
    let prefixPayload := [pre] ++ pubKeyHash
    let firstSHA := H.sha256 prefixPayload
    let secondSHA := H.sha256 firstSHA
    let checksum := secondSHA.take 4
    let fullPayload := prefixPayload ++ checksum
    .ok (base58Encode fullPayload)

/-- The loop `for i, c := range address { ... }` of `eip55Checksum`; `i` is the byte offset of
the code point `c`. -/
def eip55Loop (U : Unicode) (addressHash : List Byte) :
    Nat → List Char → List Char → Except Error (List Char)
  | _, [], eip55Address => .ok eip55Address
  | i, c :: rest, eip55Address =>
    match addressHash[i / 2]? with
    | none => .error (.panic .indexOutOfRange)
    | some hashByte =>
      let hashNibble := if i % 2 = 0 then hashByte.val >>> 4 else hashByte.val &&& 0x0f
      let eip55Address :=
        if '0' ≤ c ∧ c ≤ '9' then eip55Address ++ [c]
        else if hashNibble ≥ 8 then eip55Address ++ ToUpper U [c]
        else eip55Address ++ [c]
      eip55Loop U addressHash (i + c.utf8Size) rest eip55Address

/-- Function `eip55Checksum(address)`. -/
def eip55Checksum (H : Hashes) (U : Unicode) (address : List Char) : Except Error (List Char) :=
  if utf8Len address ≠ 42 then .error .addressLength
  else do
    let ne ← slice2Ne0x address
    if ne then .error .addressPrefix
    else
      let address := ToLower U (address.drop 2)
      let addressHash := H.keccak256 (utf8Bytes address)
      eip55Loop U addressHash 0 address "0x".toList

/-- Stand-in hash functions: each digest is its input cut or zero-padded to the digest size. -/
def toyHashes : Hashes where
  sha256 := fun d => (d ++ List.replicate 32 0).take 32
  sha256_length := by intro d; simp
  ripemd160 := fun d => (d ++ List.replicate 20 0).take 20
  ripemd160_length := by intro d; simp
  keccak256 := fun d => (d ++ List.replicate 32 0).take 32
  keccak256_length := by intro d; simp

/-- Stand-in case mappings outside ASCII: the identity. -/
def toyUnicode : Unicode := ⟨id, id⟩

/-! ## EIP-55 as the specification words it -/

/-- The characters that count as hexadecimal digits. -/
def hexDigits : List Char := "0123456789abcdefABCDEF".toList

/-- The lowercase hexadecimal digits. -/
def lowerHexDigits : List Char := "0123456789abcdef".toList

/-- The byte of an ASCII character. -/
def asciiByte (c : Char) : Byte := ⟨c.toNat % 256, Nat.mod_lt _ (by decide)⟩

/-- Nibble `i` of a hash: byte `i/2`, the high nibble for even `i`, the low nibble for odd `i`. -/
def hashNibble (hash : List Byte) (i : Nat) : Nat :=
  if i % 2 = 0 then (hash.getD (i / 2) 0).val / 16 else (hash.getD (i / 2) 0).val % 16

/-- Character `i` of a checksummed address: a digit `0`-`9` is unchanged, a letter is uppercased
when nibble `i` of the hash is at least 8, and left as it is otherwise. -/
def eip55Char (hash : List Byte) (i : Nat) (c : Char) : Char :=
  if c ∈ "0123456789".toList then c
  else if hashNibble hash i ≥ 8 then asciiToUpper c
  else c

/-- The EIP-55 form of the address `0x` + `h`: with `H` the Keccak-256 hash of the ASCII bytes
of lowercase(`h`), `0x` followed by the characters `eip55Char H i lowercase(h)[i]`. -/
def eip55Spec (H : Hashes) (h : List Char) : List Char :=
  "0x".toList ++
    (h.map asciiToLower).enum.map fun p =>
      eip55Char (H.keccak256 ((h.map asciiToLower).map asciiByte)) p.1 p.2

/-- Value of a string read as base-58 digits, most significant first, each character standing
for its position in `base58Alphabet`. -/
def base58Value (s : List Char) : Nat :=
  s.foldl (fun acc c => acc * 58 + base58Alphabet.indexOf c) 0

/-! ## Package `mnemonic`: entropy and mnemonic words -/

/-- The random source `crypto/rand`: `Read n` is the content of an `n`-byte buffer after
`rand.Read`, or `none` when `rand.Read` returns an error. -/
structure Random where
  Read : Nat → Option (List Byte)
  Read_length : ∀ n b, Read n = some b → b.length = n

/-- The fixed dictionary: an ordered list of exactly 2048 words, indexed 0..2047. -/
structure Dictionary where
  words : List (List Char)
  words_length : words.length = 2048

/-- Modelled from the spec: `getWord`, whose source is missing, returns the dictionary word at
the given index, for an index in 0..2047 ("maps each group's unsigned integer value to the
dictionary word at that index"); every other index is an error. -/
def getWord (D : Dictionary) (index : Int) : Except Error (List Char) :=
  if 0 ≤ index ∧ index < 2048 then
    match D.words[index.toNat]? with
    | some w => .ok w
    | none => .error .wordIndex
  else .error .wordIndex

/-- Value of a digit of `strconv.ParseUint` in a base up to 36, if the character is one. -/
def digitValBase (base : Nat) (c : Char) : Option Nat :=
  let d : Option Nat :=
    if '0'.toNat ≤ c.toNat ∧ c.toNat ≤ '9'.toNat then some (c.toNat - '0'.toNat)
    else if 'a'.toNat ≤ c.toNat ∧ c.toNat ≤ 'z'.toNat then some (c.toNat - 'a'.toNat + 10)
    else if 'A'.toNat ≤ c.toNat ∧ c.toNat ≤ 'Z'.toNat then some (c.toNat - 'A'.toNat + 10)
    else none
  match d with
  | some v => if v ≥ base then none else some v
  | none => none

/-- Digit loop of `strconv.ParseUint(s, base, 64)`. -/
def parseUintLoopBase (base : Nat) : List Char → Nat → Except Error Nat
  | [], acc => .ok acc
  | c :: cs, acc =>
    match digitValBase base c with
    | none => .error .parseSyntax
    | some d =>
      if acc * base + d ≥ 2 ^ 64 then .error .parseRange
      else parseUintLoopBase base cs (acc * base + d)

/-- Result of `strconv.ParseInt(s, base, 64)` for a base from 2 to 36. -/
def ParseIntBase (s : List Char) (base : Nat) : Except Error Int :=
  match s with
  | [] => .error .parseSyntax
  | c :: cs =>
    let neg := c = '-'
    let body := if c = '+' ∨ c = '-' then cs else s
    match body with
    | [] => .error .parseSyntax
    | _ =>
      match parseUintLoopBase base body 0 with
      | .error e => .error e
      | .ok un =>
        if ¬ neg ∧ un ≥ 2 ^ 63 then .error .parseRange
        else if neg ∧ un > 2 ^ 63 then .error .parseRange
        else .ok (if neg then - (un : Int) else (un : Int))

/-- Function `strings.Join(elems, sep)`. -/
def Join (elems : List (List Char)) (sep : List Char) : List Char := sep.intercalate elems

/-- Function `GenerateEntropy(length)`. -/
def GenerateEntropy (R : Random) (length : Int) : Except Error (List Byte) :=
  if length ≠ 128 ∧ length ≠ 256 then .error .entropyLength
  else
    match R.Read (length / 8).toNat with
    | none => .error .randomSource
    | some bytes => .ok bytes

/-- Function `ByteToBit(bytes)`; the bits are the characters `0` and `1`. -/
def ByteToBit (bytes : List Byte) : List Char :=
  bytes.flatMap fun b =>
    (List.range 8).map fun j =>
      let mask := (1 <<< (7 - j)) % 256
      let bit := b.val &&& mask
      if bit = 0 then '0' else '1'

/-- Function `CalculateChecksum(data)`; the slice `h256[:cs]` panics when `cs` exceeds the 256
bits of the hash. -/
def CalculateChecksum (H : Hashes) (data : List Byte) : Except Error (List Char) :=
  let h256 := ByteToBit (H.sha256 data)
  let cs := data.length * 8 / 32
  if cs > h256.length then .error (.panic .indexOutOfRange) else .ok (h256.take cs)

/-- The numbers `num` that the loop of `GenerateMnemonic` hands to `getWord`, in order: the
values of the segments `sequence[i*11:(i+1)*11]` parsed in base 2, a parse error leaving 0. -/
def wordIndices (sequence : List Char) : List Int :=
  let chunkSize := 11
  let sequenceCount := sequence.length / chunkSize
  (List.range sequenceCount).map fun i =>
    let seg := (sequence.drop (i * chunkSize)).take chunkSize
    match ParseIntBase seg 2 with
    | .ok num => num
    | .error _ => 0

/-- Function `GenerateMnemonic(length)`. -/
def GenerateMnemonic (R : Random) (H : Hashes) (D : Dictionary) (length : Int) :
    Except Error (List Char) := do
  let entropy ← GenerateEntropy R length
  let checksum ← CalculateChecksum H entropy
  let sequence := ByteToBit entropy ++ checksum
  let words ← (wordIndices sequence).mapM (getWord D)
  pure (Join words " ".toList)

/-- The `width`-bit big-endian binary form of a number, as characters `0` and `1`. -/
def binaryForm : Nat → Nat → List Char
  | 0, _ => []
  | width + 1, v => binaryForm width (v / 2) ++ [if v % 2 = 0 then '0' else '1']

/-- A stand-in random source: `n` bytes `0xA5`. -/
def toyRandom : Random where
  Read := fun n => some (List.replicate n 0xA5)
  Read_length := by intro n b h; rw [← Option.some.inj h]; simp

/-- A stand-in dictionary: word `i` is the text `w` followed by the decimal digits of `i`. -/
def toyDictionary : Dictionary where
  words := (List.range 2048).map fun i => 'w' :: (Nat.repr i).toList
  words_length := by simp

/-- Value of a string of characters `0` and `1` read as a binary number, most significant bit
first. -/
def bitsValue (s : List Char) : Nat :=
  s.foldl (fun acc c => acc * 2 + (if c = '1' then 1 else 0)) 0

/-- The bits of a byte string, each byte most significant bit first, as characters `0` and
`1`. -/
def bitsOf (bytes : List Byte) : List Char := bytes.flatMap fun b => binaryForm 8 b.val

/-- A string made of the characters `0` and `1` only. -/
def IsBits (s : List Char) : Prop := ∀ c ∈ s, c = '0' ∨ c = '1'

/-! ## Package `address`: EIP-55 address of a key -/

/-- Function `ToEIP55Address(publicKey)`; the slices `[1:]` and `[len-20:]` panic on a buffer
that is too short. -/
def ToEIP55Address (H : Hashes) (U : Unicode) (publicKey : Option PublicKey) :
    Except Error (List Char) :=
  match publicKey with
  | none => .error (.panic .nilDereference)
  | some pk =>
    let unCompressed := pk.SerializeUnCompressed
    if unCompressed.length < 1 then .error (.panic .indexOutOfRange)
    else
      let addressHash := H.keccak256 (unCompressed.drop 1)
      if addressHash.length < 20 then .error (.panic .indexOutOfRange)
      else
        let address :=
          "0x".toList ++ hexEncodeToString (addressHash.drop (addressHash.length - 20))
        eip55Checksum H U address

/-! ## Package `ethsig` -/

/-- The Go struct `EIP155Signer` (both fields non-nil). -/
structure EIP155Signer where
  chainID : Int
  chainIDMul : Int
  deriving DecidableEq, Repr

/-- Function `NewEIP155Signer(chainId)`; a nil `chainId` is replaced by zero. -/
def NewEIP155Signer (chainId : Option Int) : EIP155Signer :=
  let chainId : Int :=
    match chainId with
    | none => 0
    | some c => c
  ⟨chainId, chainId * 2⟩

/-- Method `(*EIP155Signer).SignatureValues(sig)`, returning `(r, s, v)`. The slices and the
index `sig[64]` panic on a signature shorter than 65 bytes; `sig[64] + 27` and `sig[64] + 35`
are `uint8` sums. -/
def EIP155Signer.SignatureValues (es : EIP155Signer) (sig : List Byte) :
    Except Error (Nat × Nat × Int) :=
  match sig[64]? with
  | none => .error (.panic .indexOutOfRange)
  | some sig64 =>
    let r := SetBytes (sig.take 32)
    let s := SetBytes ((sig.drop 32).take 32)
    let v : Int := ((sig64.val + 27) % 2 ^ 8 : Nat)
    let v : Int := if es.chainID ≠ 0 then ((sig64.val + 35) % 2 ^ 8 : Nat) + es.chainIDMul else v
    .ok (r, s, v)

/-! ## Public child derivation as the specification words it -/

/-- The HMAC output `I` for a public parent: HMAC-SHA512 with key `c` over the compressed
parent key followed by the 4-byte big-endian index. -/
def publicChildI (P : Primitives) (parent : PublicKey) (c : List Byte) (i : Nat) : List Byte :=
  P.hmacSha512 c (parent.Serialize ++ bigEndian 4 i)

/-- The point `IL·G + parent` as `DerivePublicKey` computes it with the curve library. -/
def publicChildPoint (P : Primitives) (parent : PublicKey) (IL : Nat) : Nat × Nat :=
  P.Add parent.x parent.y (P.ScalarBaseMult (bigEndian 32 IL)).1
    (P.ScalarBaseMult (bigEndian 32 IL)).2

/-! ## `eip55Checksum` on strings that are not valid UTF-8

A Go string is a sequence of bytes and need not be valid UTF-8. The definitions below follow
`eip55Checksum` on such a string; `eip55Checksum` above is the same function on a string given
by its code points. -/

/-- The code point `utf8.RuneError`, U+FFFD. -/
def RuneError : Char := Char.ofNat 0xFFFD

/-- The tables `first` and `acceptRanges` of package `utf8`: for the leading byte of a
multi-byte encoding, the length of the encoding and the least and the greatest second byte
accepted; `none` for a byte that starts no multi-byte encoding. -/
def utf8First (s0 : Nat) : Option (Nat × Nat × Nat) :=
  if 0xC2 ≤ s0 ∧ s0 ≤ 0xDF then some (2, 0x80, 0xBF)
  else if s0 = 0xE0 then some (3, 0xA0, 0xBF)
  else if 0xE1 ≤ s0 ∧ s0 ≤ 0xEC then some (3, 0x80, 0xBF)
  else if s0 = 0xED then some (3, 0x80, 0x9F)
  else if 0xEE ≤ s0 ∧ s0 ≤ 0xEF then some (3, 0x80, 0xBF)
  else if s0 = 0xF0 then some (4, 0x90, 0xBF)
  else if 0xF1 ≤ s0 ∧ s0 ≤ 0xF3 then some (4, 0x80, 0xBF)
  else if s0 = 0xF4 then some (4, 0x80, 0x8F)
  else none

/-- Function `utf8.DecodeRuneInString(s)`: the first code point of `s` and its width in bytes.
A byte that does not start a valid encoding gives `RuneError` and width 1; the empty string
gives `RuneError` and width 0. -/
def DecodeRuneInString : List Byte → Char × Nat
  | [] => (RuneError, 0)
  | s0 :: rest =>
    if s0.val < 0x80 then (Char.ofNat s0.val, 1)
    else
      match utf8First s0.val with
      | none => (RuneError, 1)
      | some (sz, lo, hi) =>
        if rest.length + 1 < sz then (RuneError, 1)
        else
          match rest with
          | [] => (RuneError, 1)
          | s1 :: rest =>
            if s1.val < lo ∨ hi < s1.val then (RuneError, 1)
            else if sz ≤ 2 then
              (Char.ofNat ((s0.val &&& 0x1F) <<< 6 ||| (s1.val &&& 0x3F)), 2)
            else
              match rest with
              | [] => (RuneError, 1)
              | s2 :: rest =>
                if s2.val < 0x80 ∨ 0xBF < s2.val then (RuneError, 1)
                else if sz ≤ 3 then
                  (Char.ofNat ((s0.val &&& 0x0F) <<< 12 ||| (s1.val &&& 0x3F) <<< 6 |||
                    (s2.val &&& 0x3F)), 3)
                else
                  match rest with
                  | [] => (RuneError, 1)
                  | s3 :: _ =>
                    if s3.val < 0x80 ∨ 0xBF < s3.val then (RuneError, 1)
                    else
                      (Char.ofNat ((s0.val &&& 0x07) <<< 18 ||| (s1.val &&& 0x3F) <<< 12 |||
                        (s2.val &&& 0x3F) <<< 6 ||| (s3.val &&& 0x3F)), 4)

/-- The code points that `for _, c := range s` yields on a string given by its bytes: each step
decodes one code point and moves on by its width. The first argument bounds the number of
steps; the length of `s` is enough, since every step consumes at least one byte. -/
def rangeRunes : Nat → List Byte → List Char
  | 0, _ => []
  | _ + 1, [] => []
  | fuel + 1, s0 :: rest =>
    (DecodeRuneInString (s0 :: rest)).1 ::
      rangeRunes fuel ((s0 :: rest).drop (DecodeRuneInString (s0 :: rest)).2)

/-- The code points of a string given by its bytes, a byte outside every valid encoding counting
as one `RuneError`. -/
def runes (s : List Byte) : List Char := rangeRunes s.length s

/-- Function `strings.ToLower(s)` on a string given by its bytes; the result, always valid
UTF-8, is given by its code points. An ASCII string is mapped byte by byte; any other string
goes through `strings.Map(unicode.ToLower, s)`, which reads `s` one code point at a time and
writes the mapped code points: a byte outside every valid encoding is read as `RuneError` and
written as the three bytes of the code point that `unicode.ToLower` returns for it. -/
def ToLowerBytes (U : Unicode) (s : List Byte) : List Char := (runes s).map (runeToLower U)

/-- Result of the comparison `address[:2] != "0x"` on a string given by its bytes: slicing
panics on a string shorter than two bytes. -/
def slice2Ne0xBytes (address : List Byte) : Except Error Bool :=
  if address.length < 2 then .error (.panic .indexOutOfRange)
  else .ok (address.take 2 ≠ asciiBytes "0x")

/-- Function `eip55Checksum(address)` on a string given by its bytes. After
`strings.ToLower` the string is valid UTF-8, and the loop runs over its code points with their
byte offsets. -/
def eip55ChecksumBytes (H : Hashes) (U : Unicode) (address : List Byte) :
    Except Error (List Char) :=
  if address.length ≠ 42 then .error .addressLength
  else do
    let ne ← slice2Ne0xBytes address
    if ne then .error .addressPrefix
    else
      let address := ToLowerBytes U (address.drop 2)
      let addressHash := H.keccak256 (utf8Bytes address)
      eip55Loop U addressHash 0 address "0x".toList

/-- The byte with value `n % 256`. -/
def byteOf (n : Nat) : Byte := ⟨n % 256, Nat.mod_lt _ (by decide)⟩

/-- The string `0x` followed by 22 bytes `0xFF` and 18 letters `a`: 42 bytes that begin with
`0x` and are not valid UTF-8. -/
def invalidUtf8Address : List Byte :=
  asciiBytes "0x" ++ List.replicate 22 0xFF ++ List.replicate 18 0x61

/-! ## Facts about the byte helpers -/

theorem bigEndian_length (size v : Nat) : (bigEndian size v).length = size := by
  induction size generalizing v with
  | zero => rfl
  | succ k ih => simp [bigEndian, ih]

theorem SetBytes_snoc (l : List Byte) (x : Byte) :
    SetBytes (l ++ [x]) = SetBytes l * 256 + x.val := by
  simp [SetBytes, List.foldl_append]

theorem SetBytes_bigEndian (size v : Nat) :
    SetBytes (bigEndian size v) = v % 256 ^ size := by
  induction size generalizing v with
  | zero => simp [bigEndian, SetBytes, Nat.mod_one]
  | succ k ih =>
    rw [bigEndian, SetBytes_snoc, ih]
    simp only []
    rw [pow_succ', Nat.mod_mul]
    omega

theorem FillBytes_eq_ok {v size : Nat} {b : List Byte} (h : FillBytes v size = .ok b) :
    v < 256 ^ size ∧ b = bigEndian size v := by
  unfold FillBytes at h
  split at h
  · injection h with h; exact ⟨by assumption, h.symm⟩
  · cases h

theorem n_lt : n < 256 ^ 32 := by decide

theorem ValidatePrivateKeyByte_eq_ok {b : List Byte} (h : ValidatePrivateKeyByte (some b) = .ok ()) :
    b.length = 32 := by
  unfold ValidatePrivateKeyByte at h
  simp only [privateKeySize] at h
  split at h
  · cases h
  · omega

/-- What a successful `PrivateKeyFromByte` returns. -/
theorem PrivateKeyFromByte_eq_ok {P : Primitives} {b : List Byte} {k : PrivateKey}
    (h : PrivateKeyFromByte P (some b) = .ok k) :
    b.length = 32 ∧ k.D = SetBytes b ∧
      ∃ pk, k.pubKey = some pk ∧
        NewPublicKey (some (P.ScalarBaseMult (bigEndian 32 (SetBytes b))).1)
          (some (P.ScalarBaseMult (bigEndian 32 (SetBytes b))).2) = .ok pk := by
  unfold PrivateKeyFromByte at h
  simp only [bind, Except.bind, pure, Except.pure, privateKeySize] at h
  split at h
  · cases h
  · rename_i u hv
    cases u
    have hlen := ValidatePrivateKeyByte_eq_ok hv
    split at h
    · cases h
    · rename_i k0 hk0
      have hk := (FillBytes_eq_ok hk0).2
      rw [hk] at h
      split at h
      · cases h
      · rename_i pk hpk
        injection h with h
        subst h
        exact ⟨hlen, rfl, pk, rfl, hpk⟩

theorem DerivePrivateKey_some (P : Primitives) (parent : PrivateKey) (c : List Byte) (i : Nat) :
    DerivePrivateKey P (some parent) c i =
      privateKeyData parent i >>= privateKeyChild P parent c := by
  unfold DerivePrivateKey privateKeyData privateKeyChild
  by_cases hi : i ≥ HardenedOffset
  · simp only [hi, if_true]
    cases parent.Serialize <;> rfl
  · simp only [hi, if_false]
    cases parent.PublicKey <;> rfl

theorem privateKeyChild_eq_ok {P : Primitives} {k : PrivateKey} {c data : List Byte}
    {k' : PrivateKey} {c' : List Byte}
    (h : privateKeyChild P k c data = .ok (k', c')) :
    SetBytes ((P.hmacSha512 c data).take 32) < n ∧
      k'.D = (k.D + SetBytes ((P.hmacSha512 c data).take 32)) % n ∧ k'.D ≠ 0 ∧
      c' = (P.hmacSha512 c data).drop 32 ∧
      PrivateKeyFromByte P (some (bigEndian 32 k'.D)) = .ok k' := by
  unfold privateKeyChild at h
  simp only [bind, Except.bind, pure, Except.pure, privateKeySize] at h
  split at h
  · cases h
  · rename_i hIL
    split at h
    · cases h
    · rename_i hne
      split at h
      · cases h
      · rename_i b hb
        have hb2 := (FillBytes_eq_ok hb).2
        rw [hb2] at h
        split at h
        · cases h
        · rename_i kk hkk
          injection h with h
          injection h with h1 h2
          rw [h1] at hkk
          have hD := (PrivateKeyFromByte_eq_ok hkk).2.1
          rw [SetBytes_bigEndian, Nat.mod_eq_of_lt (lt_trans (Nat.mod_lt _ (by decide)) n_lt)] at hD
          refine ⟨by omega, hD, ?_, h2.symm, ?_⟩
          · rw [hD]; exact hne
          · rw [hD]; exact hkk

/-- What a successful `DerivePrivateKey` returns: the child scalar is
`(D + IL) mod n`, it is non-zero, and the child chain code is `IR`. -/
theorem DerivePrivateKey_eq_ok {P : Primitives} {parent : Option PrivateKey} {c : List Byte}
    {i : Nat} {k' : PrivateKey} {c' : List Byte}
    (h : DerivePrivateKey P parent c i = .ok (k', c')) :
    ∃ k data, parent = some k ∧ privateKeyData k i = .ok data ∧
      SetBytes ((P.hmacSha512 c data).take 32) < n ∧
      k'.D = (k.D + SetBytes ((P.hmacSha512 c data).take 32)) % n ∧ k'.D ≠ 0 ∧
      c' = (P.hmacSha512 c data).drop 32 ∧
      PrivateKeyFromByte P (some (bigEndian 32 k'.D)) = .ok k' := by
  cases parent with
  | none => cases h
  | some k =>
    rw [DerivePrivateKey_some] at h
    cases hd : privateKeyData k i with
    | error e => rw [hd] at h; cases h
    | ok data =>
      rw [hd] at h
      exact ⟨k, data, rfl, hd, privateKeyChild_eq_ok h⟩

/-! ## Depth of a derived key (C8) -/

/-- C8, counterexample: a private extended key at depth 255 derives a child whose depth is 0,
not 256: the depth is a `uint8` and wraps. -/
theorem Derive_depth_wraps_at_255 :
    ExtendedKey.Derive (constPrimitives [1]) ⟨some (toyPrivateKey (2 ^ 255)), none, [], 255, true⟩
        (2 ^ 31) =
      .ok ⟨some (toyPrivateKey (2 ^ 255 + 2 ^ 248)), none, List.replicate 32 0, 0, true⟩ ∧
    (0 : Nat) ≠ 255 + 1 :=
  ⟨by rfl, by decide⟩

/-- C8, amended: whenever `e.Derive(i)` succeeds, the depth of the child is the depth of `e`
plus 1 reduced modulo 256; it is exactly the depth of `e` plus 1 when that depth is below 255. -/
theorem Derive_depth_succ_mod (P : Primitives) (e e' : ExtendedKey) (i : Nat)
    (h : e.Derive P i = .ok e') :
    e'.depth = (e.depth + 1) % 2 ^ 8 ∧ (e.depth < 255 → e'.depth = e.depth + 1) := by
  have key : e'.depth = (e.depth + 1) % 2 ^ 8 := by
    unfold ExtendedKey.Derive at h
    simp only [bind, Except.bind, pure, Except.pure] at h
    split at h
    · split at h
      · cases h
      · injection h with h; rw [← h]
    · split at h
      · cases h
      · split at h
        · cases h
        · injection h with h; rw [← h]
  refine ⟨key, fun hd => ?_⟩
  rw [key]
  exact Nat.mod_eq_of_lt (by omega)

/-- C8, witness: the amended statement at a depth-0 key of the stand-in instance. -/
theorem Derive_depth_succ_mod_witness :
    (1 : Nat) = (0 + 1) % 2 ^ 8 ∧ ((0 : Nat) < 255 → (1 : Nat) = 0 + 1) :=
  Derive_depth_succ_mod (constPrimitives [1])
    ⟨some (toyPrivateKey (2 ^ 255)), none, [], 0, true⟩
    ⟨some (toyPrivateKey (2 ^ 255 + 2 ^ 248)), none, List.replicate 32 0, 1, true⟩
    (2 ^ 31) (by rfl)

/-! ## Range of a derived private scalar (C9) -/

/-- C9: when `DerivePrivateKey` succeeds, the child scalar `D'` satisfies `0 < D' < n`, and
`Derive` on a private extended key holding that parent and chain code returns exactly this
child, so every successful private `Derive` step yields a scalar in range. -/
theorem DerivePrivateKey_child_scalar_in_range (P : Primitives) (parent : Option PrivateKey)
    (c : List Byte) (i : Nat) (k' : PrivateKey) (c' : List Byte)
    (h : DerivePrivateKey P parent c i = .ok (k', c')) :
    (0 < k'.D ∧ k'.D < n) ∧
      ∀ (pub : Option PublicKey) (depth : Nat),
        ExtendedKey.Derive P ⟨parent, pub, c, depth, true⟩ i =
          .ok ⟨some k', none, c', (depth + 1) % 2 ^ 8, true⟩ := by
  obtain ⟨k, data, -, -, -, hD, hne, -, -⟩ := DerivePrivateKey_eq_ok h
  refine ⟨⟨Nat.pos_of_ne_zero hne, ?_⟩, fun pub depth => ?_⟩
  · rw [hD]; exact Nat.mod_lt _ (by decide)
  · unfold ExtendedKey.Derive
    simp only [if_true, bind, Except.bind, pure, Except.pure, h]

/-- C9, witness: a hardened derivation over the stand-in instance. -/
theorem DerivePrivateKey_child_scalar_in_range_witness :
    (0 < (toyPrivateKey (2 ^ 255 + 2 ^ 248)).D ∧ (toyPrivateKey (2 ^ 255 + 2 ^ 248)).D < n) ∧
      ∀ (pub : Option PublicKey) (depth : Nat),
        ExtendedKey.Derive (constPrimitives [1])
            ⟨some (toyPrivateKey (2 ^ 255)), pub, [], depth, true⟩ (2 ^ 31) =
          .ok ⟨some (toyPrivateKey (2 ^ 255 + 2 ^ 248)), none, List.replicate 32 0,
            (depth + 1) % 2 ^ 8, true⟩ :=
  DerivePrivateKey_child_scalar_in_range (constPrimitives [1]) (some (toyPrivateKey (2 ^ 255)))
    [] (2 ^ 31) (toyPrivateKey (2 ^ 255 + 2 ^ 248)) (List.replicate 32 0) (by rfl)

/-! ## Hardened derivation from a public key (C10) -/

/-- C10: on a public-only extended key, `Derive` with an index `≥ 2^31` fails with the
hardened-from-public error; `DerivePublicKey` fails for every such index, whatever the
parent key (nil included) and chain code. -/
theorem Derive_public_hardened_fails (P : Primitives) (e : ExtendedKey) (i : Nat)
    (hpub : e.isPrivate = false) (hi : i ≥ 2 ^ 31) :
    e.Derive P i = .error .hardenedFromPublic ∧
      ∀ (parent : Option PublicKey) (c : List Byte),
        DerivePublicKey P parent c i = .error .indexRange := by
  have hi' : i ≥ HardenedOffset := by unfold HardenedOffset; omega
  constructor
  · unfold ExtendedKey.Derive
    simp [hpub, hi']
  · intro parent c
    unfold DerivePublicKey
    simp [hi']

/-- C10, witness: index `2^31` on a public-only key of the stand-in instance. -/
theorem Derive_public_hardened_fails_witness :
    ExtendedKey.Derive (constPrimitives [1]) ⟨none, some (toyPublicKey 5), [], 3, false⟩
        (2 ^ 31) = .error .hardenedFromPublic ∧
      ∀ (parent : Option PublicKey) (c : List Byte),
        DerivePublicKey (constPrimitives [1]) parent c (2 ^ 31) = .error .indexRange :=
  Derive_public_hardened_fails (constPrimitives [1]) ⟨none, some (toyPublicKey 5), [], 3, false⟩
    (2 ^ 31) rfl (by decide)

/-! ## Private and public derivation commute (C3) -/

theorem NewPublicKey_eq_ok_validate {x y : Option Nat} {pk : PublicKey}
    (h : NewPublicKey x y = .ok pk) : ValidatePublicKeyCoord x y = .ok () := by
  unfold NewPublicKey at h
  simp only [bind, Except.bind] at h
  split at h
  · cases h
  · rename_i u hu
    cases u
    exact hu

/-- C3: for a parent private key `k` whose stored public key is the point `D·G`, and an index
below `2^31`, if `DerivePrivateKey` succeeds with child `k'` and chain code `c'`, then
`DerivePublicKey` on the parent's public key succeeds with the public key of `k'` and the
same chain code `c'`. The group law of the curve library enters as `hlaw`:
`a·G + b·G = ((a + b) mod n)·G` for scalars `0 < a < n`, `b < n` whose sum is not a multiple
of `n`. -/
theorem DerivePublicKey_commutes (P : Primitives) (k : PrivateKey) (pk : PublicKey)
    (c : List Byte) (i : Nat) (k' : PrivateKey) (c' : List Byte)
    (hD : 0 < k.D ∧ k.D < n)
    (hpub : k.pubKey = some pk)
    (hpoint : (pk.x, pk.y) = P.ScalarBaseMult (bigEndian 32 k.D))
    (hlaw : ∀ a b : Nat, 0 < a → a < n → b < n → (a + b) % n ≠ 0 →
      P.Add (P.ScalarBaseMult (bigEndian 32 a)).1 (P.ScalarBaseMult (bigEndian 32 a)).2
          (P.ScalarBaseMult (bigEndian 32 b)).1 (P.ScalarBaseMult (bigEndian 32 b)).2 =
        P.ScalarBaseMult (bigEndian 32 ((a + b) % n)))
    (hi : i < 2 ^ 31)
    (h : DerivePrivateKey P (some k) c i = .ok (k', c')) :
    ∃ pk', k'.PublicKey = some pk' ∧ DerivePublicKey P k.PublicKey c i = .ok (pk', c') := by
  have hi' : ¬ i ≥ HardenedOffset := by unfold HardenedOffset; omega
  obtain ⟨k0, data, hk0, hdata, hIL, hD', hne, hc', hkk⟩ := DerivePrivateKey_eq_ok h
  have hk0 := Option.some.inj hk0
  subst hk0
  have hdata' : data = GenerateNormalKeyData pk.Serialize i := by
    unfold privateKeyData at hdata
    simp only [hi', if_false, PrivateKey.PublicKey, hpub, pure, Except.pure] at hdata
    exact (Except.ok.inj hdata).symm
  rw [hdata'] at hIL hD' hc'
  obtain ⟨-, -, pk', hpk', hnew⟩ := PrivateKeyFromByte_eq_ok hkk
  have hk'lt : k'.D < 256 ^ 32 := by
    rw [hD']; exact lt_trans (Nat.mod_lt _ (by decide)) n_lt
  rw [SetBytes_bigEndian, Nat.mod_eq_of_lt hk'lt] at hnew
  have hsum := hlaw k.D _ hD.1 hD.2 hIL (by rw [← hD']; exact hne)
  rw [← hD', ← hpoint] at hsum
  simp only at hsum
  refine ⟨pk', hpk', ?_⟩
  have hfill : FillBytes (SetBytes ((P.hmacSha512 c (GenerateNormalKeyData pk.Serialize i)).take 32))
      privateKeySize =
      .ok (bigEndian 32 (SetBytes ((P.hmacSha512 c (GenerateNormalKeyData pk.Serialize i)).take 32))) := by
    unfold FillBytes privateKeySize
    rw [if_pos (lt_trans hIL n_lt)]
  unfold DerivePublicKey
  simp only [hi', if_false, PrivateKey.PublicKey, hpub, bind, Except.bind, pure, Except.pure,
    not_le.mpr hIL, ge_iff_le, hfill, hsum, NewPublicKey_eq_ok_validate hnew, hnew, hc']

theorem toyPrimitives_law (h : List Byte → List Byte → List Byte) (a b : Nat)
    (ha : a < n) (hb : b < n) :
    (toyPrimitives h).Add
        ((toyPrimitives h).ScalarBaseMult (bigEndian 32 a)).1
        ((toyPrimitives h).ScalarBaseMult (bigEndian 32 a)).2
        ((toyPrimitives h).ScalarBaseMult (bigEndian 32 b)).1
        ((toyPrimitives h).ScalarBaseMult (bigEndian 32 b)).2 =
      (toyPrimitives h).ScalarBaseMult (bigEndian 32 ((a + b) % n)) := by
  have hn := n_lt
  have hab : (a + b) % n < n := Nat.mod_lt _ (by decide)
  simp only [toyPrimitives, SetBytes_bigEndian]
  rw [Nat.mod_eq_of_lt (lt_trans ha hn), Nat.mod_eq_of_lt (lt_trans hb hn),
    Nat.mod_eq_of_lt (lt_trans hab hn), Nat.mod_eq_of_lt ha, Nat.mod_eq_of_lt hb,
    Nat.mod_eq_of_lt hab]

/-- C3, witness: a normal derivation over the stand-in instance. -/
theorem DerivePublicKey_commutes_witness :
    ∃ pk', (toyPrivateKey (2 ^ 255 + 2 ^ 248)).PublicKey = some pk' ∧
      DerivePublicKey (constPrimitives [1]) (toyPrivateKey (2 ^ 255)).PublicKey [] 7 =
        .ok (pk', List.replicate 32 0) :=
  DerivePublicKey_commutes (constPrimitives [1]) (toyPrivateKey (2 ^ 255))
    (toyPublicKey (2 ^ 255)) [] 7 (toyPrivateKey (2 ^ 255 + 2 ^ 248)) (List.replicate 32 0)
    (by decide) (by rfl) (by rfl)
    (fun a b _ ha hb _ => toyPrimitives_law _ a b ha hb) (by decide) (by rfl)

/-! ## The value check of `ValidatePrivateKeyByte` (C4, C5, C6, C7) -/

theorem SetBytes_foldl (l : List Byte) (a : Nat) :
    l.foldl (fun acc x => acc * 256 + x.val) a = a * 256 ^ l.length + SetBytes l := by
  induction l generalizing a with
  | nil => simp [SetBytes]
  | cons x t ih =>
    simp only [List.foldl_cons, SetBytes, List.length_cons]
    rw [ih, ih (0 * 256 + x.val)]
    ring

theorem SetBytes_cons (x : Byte) (l : List Byte) :
    SetBytes (x :: l) = x.val * 256 ^ l.length + SetBytes l := by
  simp only [SetBytes, List.foldl_cons]
  rw [SetBytes_foldl]
  simp [SetBytes]

theorem SetBytes_lt (l : List Byte) : SetBytes l < 256 ^ l.length := by
  induction l with
  | nil => simp [SetBytes]
  | cons x t ih =>
    rw [SetBytes_cons, List.length_cons, pow_succ]
    have hx : x.val < 256 := x.isLt
    nlinarith

/-- The word `ValidatePrivateKeyByte` tests is the value of the buffer divided by `2^224`:
only the four leading bytes of the 32 are read. -/
theorem Uint32_eq_div (l : List Byte) (hl : l.length = 32) :
    Uint32 l = .ok (SetBytes l / 2 ^ 224) := by
  match l, hl with
  | b0 :: b1 :: b2 :: b3 :: t, hl =>
    have ht : t.length = 28 := by simpa using hl
    have hlt := SetBytes_lt t
    rw [ht] at hlt
    simp only [Uint32, SetBytes_cons, List.length_cons, ht]
    congr 1
    rw [Nat.div_eq_of_lt_le]
    · norm_num; omega
    · norm_num; omega

theorem ValidatePrivateKeyByte_some (l : List Byte) (hl : l.length = 32) :
    ValidatePrivateKeyByte (some l) =
      if SetBytes l / 2 ^ 224 = 0 then .error .privateKeyValue else .ok () := by
  unfold ValidatePrivateKeyByte
  simp only [privateKeySize, hl, ne_eq, not_true, if_false, Uint32_eq_div l hl, bind,
    Except.bind]

theorem ValidatePrivateKeyByte_length (l : List Byte) (hl : l.length ≠ 32) :
    ValidatePrivateKeyByte (some l) = .error .privateKeyLength := by
  unfold ValidatePrivateKeyByte
  simp only [privateKeySize, hl, ne_eq, not_false_eq_true, if_true]

theorem PrivateKeyFromByte_of_validate_error (P : Primitives) (b : Option (List Byte))
    (e : Error) (h : ValidatePrivateKeyByte b = .error e) :
    PrivateKeyFromByte P b = .error e := by
  unfold PrivateKeyFromByte
  simp only [bind, Except.bind, h]

theorem FillBytes_error {v size : Nat} {e : Error} (h : FillBytes v size = .error e) :
    e = .panic .bufferTooSmall := by
  unfold FillBytes at h
  split at h
  · cases h
  · exact (Except.error.inj h).symm

theorem NewPublicKey_error {x y : Nat} {e : Error}
    (h : NewPublicKey (some x) (some y) = .error e) :
    e = .pointAtInfinity ∨ e = .panic .bufferTooSmall := by
  unfold NewPublicKey at h
  simp only [bind, Except.bind, pure, Except.pure, ValidatePublicKeyCoord] at h
  split at h
  · rename_i e' he'
    split at he'
    · left; rw [← Except.error.inj h, ← Except.error.inj he']
    · cases he'
  · repeat' (split at h)
    all_goals try cases h
    all_goals first
      | (apply Or.inr; apply FillBytes_error; assumption)
      | (rename_i h1; cases h1)

theorem PrivateKeyFromByte_error_of_validate_ok (P : Primitives) (l : List Byte) (e : Error)
    (hv : ValidatePrivateKeyByte (some l) = .ok ())
    (h : PrivateKeyFromByte P (some l) = .error e) :
    e = .pointAtInfinity ∨ e = .panic .bufferTooSmall := by
  unfold PrivateKeyFromByte at h
  simp only [bind, Except.bind, pure, Except.pure, hv] at h
  split at h
  · rename_i e1 h1
    right; rw [← Except.error.inj h]; exact FillBytes_error h1
  · split at h
    · rename_i e1 h1
      rw [← Except.error.inj h]; exact NewPublicKey_error h1
    · cases h

theorem SetBytes_eq_zero_of_all_zero (l : List Byte) (h : ∀ x ∈ l, x = 0) : SetBytes l = 0 := by
  induction l with
  | nil => rfl
  | cons x t ih =>
    rw [SetBytes_cons, ih (fun y hy => h y (List.mem_cons_of_mem _ hy)),
      h x (List.mem_cons_self _ _)]
    simp

/-- C4, counterexample: a nil buffer has length 0, not 32, yet is not rejected with the
length error but with the nil-value error; and the 32-byte buffer `00…01`, which has a
non-zero byte, is rejected by the value check. -/
theorem PrivateKeyFromByte_nil_and_one_rejected :
    (len none ≠ 32 ∧
      PrivateKeyFromByte (constPrimitives [1]) none = .error .privateKeyNil ∧
      PrivateKeyFromByte (constPrimitives [1]) none ≠ .error .privateKeyLength) ∧
    ((bigEndian 32 1).length = 32 ∧ (1 : Byte) ∈ bigEndian 32 1 ∧
      PrivateKeyFromByte (constPrimitives [1]) (some (bigEndian 32 1)) =
        .error .privateKeyValue) :=
  ⟨⟨by decide, by rfl, by decide⟩, by rfl, by decide, by rfl⟩

/-- C4, amended: `PrivateKeyFromByte(b)` fails with the nil-value error when `b` is nil, with
the length error if and only if `b` is non-nil and `len(b) ≠ 32`; a 32-byte buffer whose bytes
are all zero fails with the invalid-value error, and a 32-byte buffer whose four leading bytes
are not all zero is not rejected by the value check. -/
theorem PrivateKeyFromByte_errors (P : Primitives) (b : Option (List Byte)) :
    (b = none → PrivateKeyFromByte P b = .error .privateKeyNil) ∧
    (PrivateKeyFromByte P b = .error .privateKeyLength ↔ b ≠ none ∧ len b ≠ 32) ∧
    (∀ l, b = some l → l.length = 32 → (∀ x ∈ l, x = 0) →
      PrivateKeyFromByte P b = .error .privateKeyValue) ∧
    (∀ l, b = some l → l.length = 32 → l.take 4 ≠ [0, 0, 0, 0] →
      PrivateKeyFromByte P b ≠ .error .privateKeyValue) := by
  refine ⟨?_, ?_, ?_, ?_⟩
  · intro hb
    rw [hb]
    exact PrivateKeyFromByte_of_validate_error P none _ rfl
  · cases b with
    | none =>
      rw [PrivateKeyFromByte_of_validate_error P none .privateKeyNil rfl]
      simp
    | some l =>
      by_cases hl : l.length = 32
      · have hlen : len (some l) = 32 := hl
        constructor
        · intro h
          exfalso
          rw [← hlen] at hl
          rw [hlen] at hl
          by_cases hz : SetBytes l / 2 ^ 224 = 0
          · rw [PrivateKeyFromByte_of_validate_error P (some l) .privateKeyValue
              (by rw [ValidatePrivateKeyByte_some l hl, if_pos hz])] at h
            cases h
          · have hv : ValidatePrivateKeyByte (some l) = .ok () := by
              rw [ValidatePrivateKeyByte_some l hl, if_neg hz]
            rcases PrivateKeyFromByte_error_of_validate_ok P l _ hv h with h1 | h1 <;> cases h1
        · intro h
          exact absurd hlen h.2
      · have hlen : len (some l) ≠ 32 := hl
        rw [PrivateKeyFromByte_of_validate_error P (some l) .privateKeyLength
          (ValidatePrivateKeyByte_length l hl)]
        simp [hlen]
  · intro l hb hl hz
    rw [hb]
    apply PrivateKeyFromByte_of_validate_error
    rw [ValidatePrivateKeyByte_some l hl, SetBytes_eq_zero_of_all_zero l hz]
    simp
  · intro l hb hl hz h
    rw [hb] at h
    have hw : SetBytes l / 2 ^ 224 ≠ 0 := by
      intro h0
      apply hz
      match l, hl with
      | b0 :: b1 :: b2 :: b3 :: t, hl =>
        have hu := Uint32_eq_div _ hl
        rw [h0] at hu
        simp only [Uint32] at hu
        have hu := Except.ok.inj hu
        have h0' : b0.val = 0 := by omega
        have h1' : b1.val = 0 := by omega
        have h2' : b2.val = 0 := by omega
        have h3' : b3.val = 0 := by omega
        simp only [List.take_succ_cons, List.take_zero]
        rw [show b0 = 0 from Fin.ext h0', show b1 = 0 from Fin.ext h1',
          show b2 = 0 from Fin.ext h2', show b3 = 0 from Fin.ext h3']
    have hv : ValidatePrivateKeyByte (some l) = .ok () := by
      rw [ValidatePrivateKeyByte_some l hl, if_neg hw]
    rcases PrivateKeyFromByte_error_of_validate_ok P l _ hv h with h1 | h1 <;> cases h1

/-- C5, failing region: for every private key whose scalar is positive and below `2^224`
(so `0 < D < n`), `Serialize` succeeds but `PrivateKeyFromByte` rejects the serialization
with the invalid-value error: the round trip fails. -/
theorem PrivateKey_roundtrip_fails_below_2_224 (P : Primitives) (k : PrivateKey)
    (hD : 0 < k.D ∧ k.D < 2 ^ 224) :
    k.D < n ∧ k.Serialize = .ok (bigEndian 32 k.D) ∧
      (k.Serialize >>= fun b => PrivateKeyFromByte P (some b)) = .error .privateKeyValue := by
  have hlt : k.D < 256 ^ 32 := lt_trans hD.2 (by norm_num)
  have hser : k.Serialize = .ok (bigEndian 32 k.D) := by
    unfold PrivateKey.Serialize FillBytes privateKeySize
    rw [if_pos hlt]
  refine ⟨lt_trans hD.2 (by decide), hser, ?_⟩
  rw [hser]
  simp only [bind, Except.bind]
  apply PrivateKeyFromByte_of_validate_error
  rw [ValidatePrivateKeyByte_some _ (bigEndian_length 32 k.D), SetBytes_bigEndian,
    Nat.mod_eq_of_lt hlt, if_pos (Nat.div_eq_of_lt hD.2)]

/-- C5, failing input: the private key with scalar `D = 1`. -/
theorem PrivateKey_roundtrip_fails_below_2_224_witness :
    (1 : Nat) < n ∧ PrivateKey.Serialize ⟨none, 1⟩ = .ok (bigEndian 32 1) ∧
      (PrivateKey.Serialize ⟨none, 1⟩ >>= fun b =>
        PrivateKeyFromByte (constPrimitives [1]) (some b)) = .error .privateKeyValue :=
  PrivateKey_roundtrip_fails_below_2_224 (constPrimitives [1]) ⟨none, 1⟩ (by decide)

/-- C6, failing region: whenever the HMAC output has `IL < n` and the child scalar
`(IL + D) mod n` is non-zero but below `2^224`, `DerivePrivateKey` fails (with the
invalid-value error of `PrivateKeyFromByte`), although `IL < n` and `(IL + D) mod n ≠ 0`. -/
theorem DerivePrivateKey_rejects_child_below_2_224 (P : Primitives) (k : PrivateKey)
    (c data : List Byte) (i : Nat)
    (hdata : privateKeyData k i = .ok data)
    (hIL : SetBytes ((P.hmacSha512 c data).take 32) < n)
    (hchild : 0 < (k.D + SetBytes ((P.hmacSha512 c data).take 32)) % n ∧
      (k.D + SetBytes ((P.hmacSha512 c data).take 32)) % n < 2 ^ 224) :
    DerivePrivateKey P (some k) c i = .error .privateKeyValue := by
  have hlt : (k.D + SetBytes ((P.hmacSha512 c data).take 32)) % n < 256 ^ 32 :=
    lt_trans hchild.2 (by norm_num)
  have hfill : FillBytes ((k.D + SetBytes ((P.hmacSha512 c data).take 32)) % n) privateKeySize =
      .ok (bigEndian 32 ((k.D + SetBytes ((P.hmacSha512 c data).take 32)) % n)) := by
    unfold FillBytes privateKeySize
    rw [if_pos hlt]
  have hval : PrivateKeyFromByte P
      (some (bigEndian 32 ((k.D + SetBytes ((P.hmacSha512 c data).take 32)) % n))) =
      .error .privateKeyValue := by
    apply PrivateKeyFromByte_of_validate_error
    rw [ValidatePrivateKeyByte_some _ (bigEndian_length 32 _), SetBytes_bigEndian,
      Nat.mod_eq_of_lt hlt, if_pos (Nat.div_eq_of_lt hchild.2)]
  rw [DerivePrivateKey_some, hdata]
  simp only [bind, Except.bind]
  unfold privateKeyChild
  simp only [ge_iff_le, not_le.mpr hIL, if_false, Nat.pos_iff_ne_zero.mp hchild.1, hfill,
    bind, Except.bind, hval]

/-- C6, failing input: parent scalar `2^224`, HMAC output with `IL = n - 2^224 + 1`; the child
scalar would be 1. -/
theorem DerivePrivateKey_rejects_child_below_2_224_witness :
    DerivePrivateKey (constPrimitives (bigEndian 32 (n - 2 ^ 224 + 1)))
      (some (toyPrivateKey (2 ^ 224))) [] 0 = .error .privateKeyValue :=
  DerivePrivateKey_rejects_child_below_2_224 (constPrimitives (bigEndian 32 (n - 2 ^ 224 + 1)))
    (toyPrivateKey (2 ^ 224)) [] (GenerateNormalKeyData (toyPublicKey (2 ^ 224)).Serialize 0) 0
    (by rfl) (by decide) (by decide)

/-- What a successful `NewMasterFromSeed` returns: a private key of depth 0 whose chain code is
`I[32:64]` and whose scalar is the big-endian value of `I[0:32]`, which is at least `2^224`. -/
theorem NewMasterFromSeed_eq_ok {P : Primitives} {seed : List Byte} {e : ExtendedKey}
    (h : NewMasterFromSeed P seed = .ok e) :
    e.isPrivate = true ∧ e.depth = 0 ∧
      e.chainCode = (P.hmacSha512 masterKeyString seed).drop 32 ∧
      ∃ k, e.privKey = some k ∧
        k.D = SetBytes ((P.hmacSha512 masterKeyString seed).take 32) ∧ 2 ^ 224 ≤ k.D := by
  unfold NewMasterFromSeed at h
  simp only [P.hmacSha512_length, Nat.reduceDiv, bind, Except.bind, pure, Except.pure] at h
  split at h
  · cases h
  · rename_i k hk
    have he := Except.ok.inj h
    rw [← he]
    refine ⟨rfl, rfl, rfl, k, rfl, (PrivateKeyFromByte_eq_ok hk).2.1, ?_⟩
    have hlen := (PrivateKeyFromByte_eq_ok hk).1
    rw [(PrivateKeyFromByte_eq_ok hk).2.1]
    have hv : ValidatePrivateKeyByte (some ((P.hmacSha512 masterKeyString seed).take 32)) =
        .ok () := by
      unfold PrivateKeyFromByte at hk
      simp only [bind, Except.bind] at hk
      split at hk
      · cases hk
      · rename_i u hu; cases u; exact hu
    rw [ValidatePrivateKeyByte_some _ hlen] at hv
    split at hv
    · cases hv
    · rename_i hne
      by_contra hlt
      exact hne (Nat.div_eq_of_lt (not_le.mp hlt))

/-- C7, failing region: whenever the left half `IL` of `HMAC-SHA512("Bitcoin seed", seed)` is
`≥ n` (and `IL·G` is accepted as a point), `NewMasterFromSeed` does not reject the seed: it
returns a depth-0 private key whose scalar is `IL`, so the scalar is not below `n`. -/
theorem NewMasterFromSeed_accepts_IL_ge_n (P : Primitives) (seed : List Byte) (pk : PublicKey)
    (hIL : n ≤ SetBytes ((P.hmacSha512 masterKeyString seed).take 32))
    (hpk : NewPublicKey
      (some (P.ScalarBaseMult
        (bigEndian 32 (SetBytes ((P.hmacSha512 masterKeyString seed).take 32)))).1)
      (some (P.ScalarBaseMult
        (bigEndian 32 (SetBytes ((P.hmacSha512 masterKeyString seed).take 32)))).2) = .ok pk) :
    NewMasterFromSeed P seed =
        .ok ⟨some ⟨some pk, SetBytes ((P.hmacSha512 masterKeyString seed).take 32)⟩, none,
          (P.hmacSha512 masterKeyString seed).drop 32, 0, true⟩ ∧
      ¬ SetBytes ((P.hmacSha512 masterKeyString seed).take 32) < n := by
  refine ⟨?_, not_lt.mpr hIL⟩
  have hlen : ((P.hmacSha512 masterKeyString seed).take 32).length = 32 := by
    rw [List.length_take, P.hmacSha512_length]; rfl
  have hlt := SetBytes_lt ((P.hmacSha512 masterKeyString seed).take 32)
  rw [hlen] at hlt
  have hn : 2 ^ 224 ≤ n := by decide
  have hw : SetBytes ((P.hmacSha512 masterKeyString seed).take 32) / 2 ^ 224 ≠ 0 := by
    have := Nat.div_pos (le_trans hn hIL) (by norm_num : 0 < 2 ^ 224)
    omega
  have hv : ValidatePrivateKeyByte (some ((P.hmacSha512 masterKeyString seed).take 32)) =
      .ok () := by
    rw [ValidatePrivateKeyByte_some _ hlen, if_neg hw]
  have hfill : FillBytes (SetBytes ((P.hmacSha512 masterKeyString seed).take 32))
      privateKeySize =
      .ok (bigEndian 32 (SetBytes ((P.hmacSha512 masterKeyString seed).take 32))) := by
    unfold FillBytes privateKeySize
    rw [if_pos hlt]
  unfold NewMasterFromSeed PrivateKeyFromByte
  simp only [P.hmacSha512_length, Nat.reduceDiv, bind, Except.bind, pure, Except.pure, hv, hfill,
    hpk]

/-- C7, failing input: a keyed hash whose output starts with 32 bytes `0xFF`
(`IL = 2^256 - 1 ≥ n`). -/
theorem NewMasterFromSeed_accepts_IL_ge_n_witness :
    NewMasterFromSeed (constPrimitives (List.replicate 32 255)) [] =
        .ok ⟨some ⟨some (toyPublicKey (2 ^ 256 - 1 - n)), 2 ^ 256 - 1⟩, none,
          List.replicate 32 0, 0, true⟩ ∧
      ¬ (2 ^ 256 - 1 < n) :=
  NewMasterFromSeed_accepts_IL_ge_n (constPrimitives (List.replicate 32 255)) []
    (toyPublicKey (2 ^ 256 - 1 - n)) (by decide) (by rfl)

/-! ## Path derivation (C1) -/

/-- C1, failing input: on the path `m/44'/0'/0'/0/0` only the first character of each segment
is parsed, so the first step is `Derive(4 + 2^31)`, not `Derive(44 + 2^31)`; over the
stand-in instance `echoPrimitives` the two give different keys. -/
theorem DerivePath_reads_first_digit_only :
    (∀ (P : Primitives) (e : ExtendedKey),
      e.DerivePath P "m/44'/0'/0'/0/0".toList =
        (e.Derive P (4 + 2 ^ 31) >>= fun k1 => k1.Derive P (2 ^ 31) >>= fun k2 =>
          k2.Derive P (2 ^ 31) >>= fun k3 => k3.Derive P 0 >>= fun k4 => k4.Derive P 0)) ∧
    ExtendedKey.DerivePath echoPrimitives ⟨some (toyPrivateKey (2 ^ 255)), none, [], 0, true⟩
        "m/44'".toList =
      ExtendedKey.Derive echoPrimitives ⟨some (toyPrivateKey (2 ^ 255)), none, [], 0, true⟩
        (4 + 2 ^ 31) ∧
    ExtendedKey.DerivePath echoPrimitives ⟨some (toyPrivateKey (2 ^ 255)), none, [], 0, true⟩
        "m/44'".toList ≠
      ExtendedKey.Derive echoPrimitives ⟨some (toyPrivateKey (2 ^ 255)), none, [], 0, true⟩
        (44 + 2 ^ 31) := by
  refine ⟨?_, by rfl, by decide⟩
  intro P e
  have hloop : e.DerivePath P "m/44'/0'/0'/0/0".toList =
      (e.Derive P (4 + 2 ^ 31) >>= fun k1 => k1.Derive P (2 ^ 31) >>= fun k2 =>
        k2.Derive P (2 ^ 31) >>= fun k3 => k3.Derive P 0 >>= fun k4 =>
          k4.Derive P 0 >>= pure) := rfl
  rw [hloop]
  simp only [bind_pure]

/-! ## Seed derivation (C2) -/

/-- C2, failing input: `GenerateMasterSeed` never reads its salt argument; the salt handed to
PBKDF2 is always the literal `"mnemonic1234"`. With the empty passphrase the claim's salt is
`"mnemonic"`, which is a different byte string. -/
theorem GenerateMasterSeed_salt_is_literal :
    (∀ (P : Primitives) (m p : List Byte),
      GenerateMasterSeed P m p = P.pbkdf2Sha512 m (asciiBytes "mnemonic1234") 2048 64) ∧
    asciiBytes "mnemonic1234" ≠ asciiBytes "mnemonic" ++ [] ∧
    GenerateMasterSeed echoPrimitives (asciiBytes "abandon") [] ≠
      echoPrimitives.pbkdf2Sha512 (asciiBytes "abandon") (asciiBytes "mnemonic" ++ []) 2048 64 :=
  ⟨fun _ _ _ => rfl, by decide, by decide⟩

/-! ## Decoding a public key that does not parse (C11) -/

/-- C11, failing region: for every parser and every buffer that passes `ValidatePublicKeyByte`
but on which `ParsePubKey` returns no key, `PublicKeyFromByte` does not return an error: it
dereferences the nil parse result and panics. -/
theorem PublicKeyFromByte_panics_on_parse_failure (ParsePubKey : List Byte → Option (Nat × Nat))
    (b : List Byte) (hv : ValidatePublicKeyByte b = .ok ()) (hp : ParsePubKey b = none) :
    PublicKeyFromByte ParsePubKey b = .error (.panic .nilDereference) ∧
      Error.isPanic (.panic .nilDereference) = true := by
  refine ⟨?_, rfl⟩
  unfold PublicKeyFromByte
  simp only [bind, Except.bind, hv, hp]

/-- C11, failing input: the 33-byte buffer `04 00 … 00`, which has an accepted length and an
accepted first byte but is not a compressed encoding. -/
theorem PublicKeyFromByte_panics_on_parse_failure_witness :
    PublicKeyFromByte formatParsePubKey (0x04 :: List.replicate 32 0) =
        .error (.panic .nilDereference) ∧
      Error.isPanic (.panic .nilDereference) = true :=
  PublicKeyFromByte_panics_on_parse_failure formatParsePubKey (0x04 :: List.replicate 32 0)
    (by rfl) (by rfl)

/-! ## Malformed path segments (C12) -/

/-- C12, failing input: on the paths `m/1a`, `m/0x`, `m/4 ` and `m/1''` no error is returned for
the malformed segment; `DerivePath` reads its first character and derives with index 1, 0, 4
and `1 + 2^31`. Over the stand-in instance `constPrimitives [1]` the call on `m/1a` returns a key. -/
theorem DerivePath_accepts_malformed_segment :
    (∀ (P : Primitives) (e : ExtendedKey),
      e.DerivePath P "m/1a".toList = e.Derive P 1 ∧
      e.DerivePath P "m/0x".toList = e.Derive P 0 ∧
      e.DerivePath P "m/4 ".toList = e.Derive P 4 ∧
      e.DerivePath P "m/1''".toList = e.Derive P (1 + 2 ^ 31)) ∧
    ExtendedKey.DerivePath (constPrimitives [1])
        ⟨some (toyPrivateKey (2 ^ 255)), none, [], 0, true⟩ "m/1a".toList =
      .ok ⟨some (toyPrivateKey (2 ^ 255 + 2 ^ 248)), none, List.replicate 32 0, 1, true⟩ := by
  refine ⟨fun P e => ?_, by rfl⟩
  have h1 : e.DerivePath P "m/1a".toList = (e.Derive P 1 >>= pure) := rfl
  have h2 : e.DerivePath P "m/0x".toList = (e.Derive P 0 >>= pure) := rfl
  have h3 : e.DerivePath P "m/4 ".toList = (e.Derive P 4 >>= pure) := rfl
  have h4 : e.DerivePath P "m/1''".toList = (e.Derive P (1 + 2 ^ 31) >>= pure) := rfl
  rw [h1, h2, h3, h4]
  simp only [bind_pure, and_self]

/-! ## Serialisations built by `NewPublicKey` (C20) -/

theorem make_set_zero (k : Nat) (p : Byte) : (make (k + 1)).set 0 p = p :: List.replicate k 0 := by
  simp [make, List.replicate_succ]

theorem copyAt_one (p : Byte) (src : List Byte) (r : Nat) :
    copyAt (p :: List.replicate (src.length + r) 0) 1 src = p :: (src ++ List.replicate r 0) := by
  unfold copyAt
  simp only [List.take_succ_cons, List.take_zero, List.length_cons, List.length_replicate,
    Nat.add_sub_cancel, List.singleton_append, List.cons.injEq, true_and]
  rw [List.take_of_length_le (by omega), Nat.add_comm 1, List.drop_succ_cons,
    List.drop_replicate]
  simp

theorem copyAt_tail (l src : List Byte) :
    copyAt (l ++ List.replicate src.length 0) l.length src = l ++ src := by
  unfold copyAt
  simp [List.take_append_of_le_length, List.drop_append_eq_append_drop]

theorem FillBytes_of_lt {v size : Nat} (h : v < 256 ^ size) :
    FillBytes v size = .ok (bigEndian size v) := by
  unfold FillBytes
  rw [if_pos h]

/-- C20: for coordinates `x, y < 2^256` that are not both zero, `NewPublicKey` succeeds;
`Serialize()` is the 33 bytes `0x02` (y even) or `0x03` (y odd) followed by the 32-byte
big-endian `x`, and `SerializeUnCompressed()` is the 65 bytes `0x04`, the 32-byte big-endian
`x`, the 32-byte big-endian `y`. -/
theorem NewPublicKey_serializations (x y : Nat) (hx : x < 2 ^ 256) (hy : y < 2 ^ 256)
    (hne : ¬ (x = 0 ∧ y = 0)) :
    ∃ pk, NewPublicKey (some x) (some y) = .ok pk ∧ pk.x = x ∧ pk.y = y ∧
      pk.Serialize = (if y % 2 = 0 then 0x02 else 0x03) :: bigEndian 32 x ∧
      pk.Serialize.length = 33 ∧
      pk.SerializeUnCompressed = 0x04 :: (bigEndian 32 x ++ bigEndian 32 y) ∧
      pk.SerializeUnCompressed.length = 65 := by
  have hx' : x < 256 ^ 32 := by norm_num at hx ⊢; exact hx
  have hy' : y < 256 ^ 32 := by norm_num at hy ⊢; exact hy
  have hlx : (bigEndian 32 x).length = 32 := bigEndian_length 32 x
  have hly : (bigEndian 32 y).length = 32 := bigEndian_length 32 y
  have hc : copyAt ((make compressedPublicKeySize).set 0 (if Bit0 y = 1 then 0x03 else 0x02)) 1
      (bigEndian 32 x) = (if y % 2 = 0 then 0x02 else 0x03) :: bigEndian 32 x := by
    have h := copyAt_one (if Bit0 y = 1 then 0x03 else 0x02) (bigEndian 32 x) 0
    rw [hlx] at h
    rw [compressedPublicKeySize, make_set_zero 32, h]
    simp only [List.replicate_zero, List.append_nil, Bit0, List.cons.injEq, and_true]
    rcases Nat.mod_two_eq_zero_or_one y with h0 | h1
    · simp [h0]
    · simp [h1]
  have hu : copyAt (copyAt ((make unCompressedPublicKeySize).set 0 0x04) 1 (bigEndian 32 x)) 33
      (bigEndian 32 y) = 0x04 :: (bigEndian 32 x ++ bigEndian 32 y) := by
    have h := copyAt_one 0x04 (bigEndian 32 x) 32
    rw [hlx] at h
    rw [unCompressedPublicKeySize, make_set_zero 64, h]
    have h2 := copyAt_tail (0x04 :: bigEndian 32 x) (bigEndian 32 y)
    rw [hly, List.length_cons, hlx] at h2
    rw [← List.cons_append, h2, List.cons_append]
  refine ⟨⟨x, y, (if y % 2 = 0 then 0x02 else 0x03) :: bigEndian 32 x,
    0x04 :: (bigEndian 32 x ++ bigEndian 32 y)⟩, ?_, rfl, rfl, rfl, ?_, rfl, ?_⟩
  · unfold NewPublicKey ValidatePublicKeyCoord
    simp only [hne, if_false, bind, Except.bind, pure, Except.pure, FillBytes_of_lt hx',
      FillBytes_of_lt hy', hc, hu]
  · simp [PublicKey.Serialize, hlx]
  · simp [PublicKey.SerializeUnCompressed, hlx, hly]

/-- C20, witness: the point with coordinates `(1, 2)`. -/
theorem NewPublicKey_serializations_witness :
    ∃ pk, NewPublicKey (some 1) (some 2) = .ok pk ∧ pk.x = 1 ∧ pk.y = 2 ∧
      pk.Serialize = (if 2 % 2 = 0 then 0x02 else 0x03) :: bigEndian 32 1 ∧
      pk.Serialize.length = 33 ∧
      pk.SerializeUnCompressed = 0x04 :: (bigEndian 32 1 ++ bigEndian 32 2) ∧
      pk.SerializeUnCompressed.length = 65 :=
  NewPublicKey_serializations 1 2 (by norm_num) (by norm_num) (by decide)

/-! ## Strings of ASCII characters -/

theorem utf8Size_of_ascii (c : Char) (h : c.toNat ≤ 0x7F) : c.utf8Size = 1 := by
  have h' : c.val ≤ 0x7F := by
    rw [UInt32.le_def]
    exact h
  unfold Char.utf8Size
  simp only []
  split
  · rfl
  · rename_i hn
    exact absurd h' hn

theorem utf8Size_pos (c : Char) : 0 < c.utf8Size := by
  unfold Char.utf8Size
  simp only []
  split
  · decide
  · split
    · decide
    · split <;> decide

theorem utf8Len_ascii (s : List Char) (h : ∀ c ∈ s, c.toNat ≤ 0x7F) : utf8Len s = s.length := by
  induction s with
  | nil => rfl
  | cons c t ih =>
    rw [utf8Len, utf8Size_of_ascii c (h c (List.mem_cons_self _ _)),
      ih (fun d hd => h d (List.mem_cons_of_mem _ hd)), List.length_cons]
    omega

theorem runeToLower_ascii (U : Unicode) (c : Char) (h : c.toNat ≤ 0x7F) :
    runeToLower U c = asciiToLower c := by
  unfold runeToLower
  rw [if_pos h]

theorem runeToUpper_ascii (U : Unicode) (c : Char) (h : c.toNat ≤ 0x7F) :
    runeToUpper U c = asciiToUpper c := by
  unfold runeToUpper
  rw [if_pos h]

/-- The loop of `eip55Checksum` can only fail by a panic. -/
theorem eip55Loop_error (U : Unicode) (hash : List Byte) (cs : List Char) (i : Nat)
    (acc : List Char) (e : Error) (h : eip55Loop U hash i cs acc = .error e) :
    e.isPanic = true := by
  induction cs generalizing i acc with
  | nil => cases h
  | cons c t ih =>
    unfold eip55Loop at h
    split at h
    · rw [← Except.error.inj h]; rfl
    · exact ih _ _ h

/-! ## EIP-55 casing (C14) and idempotence (C13) -/

set_option maxRecDepth 100000 in
theorem hexDigits_facts : ∀ c ∈ hexDigits, c.toNat ≤ 0x7F ∧ asciiToLower c ∈ lowerHexDigits := by
  decide

set_option maxRecDepth 100000 in
theorem lowerHexDigits_facts : ∀ c ∈ lowerHexDigits,
    c.toNat ≤ 0x7F ∧ (('0' ≤ c ∧ c ≤ '9') ↔ c ∈ "0123456789".toList) ∧
      utf8Bytes [c] = [asciiByte c] ∧ asciiToLower c = c ∧
      asciiToLower (asciiToUpper c) = c ∧ asciiToUpper c ∈ hexDigits ∧ c ∈ hexDigits := by
  decide

set_option maxRecDepth 100000 in
theorem byte_nibbles : ∀ b : Byte, b.val >>> 4 = b.val / 16 ∧ b.val &&& 0x0f = b.val % 16 := by
  decide

theorem utf8Bytes_cons (c : Char) (t : List Char) :
    utf8Bytes (c :: t) = utf8Bytes [c] ++ utf8Bytes t := by
  simp [utf8Bytes]

theorem utf8Bytes_lowerHex (s : List Char) (h : ∀ c ∈ s, c ∈ lowerHexDigits) :
    utf8Bytes s = s.map asciiByte := by
  induction s with
  | nil => rfl
  | cons c t ih =>
    rw [utf8Bytes_cons, (lowerHexDigits_facts c (h c (List.mem_cons_self _ _))).2.2.1,
      ih (fun d hd => h d (List.mem_cons_of_mem _ hd))]
    rfl

/-- On lowercase hexadecimal digits the loop of `eip55Checksum` appends the characters
`eip55Char hash i c`, `i` counting from the offset it starts at. -/
theorem eip55Loop_lowerHex (U : Unicode) (hash : List Byte) (hlen : hash.length = 32)
    (cs : List Char) (hcs : ∀ c ∈ cs, c ∈ lowerHexDigits) (i : Nat) (hi : i + cs.length ≤ 64)
    (acc : List Char) :
    eip55Loop U hash i cs acc =
      .ok (acc ++ (cs.enumFrom i).map fun p => eip55Char hash p.1 p.2) := by
  induction cs generalizing i acc with
  | nil => simp [eip55Loop]
  | cons c t ih =>
    have hc := lowerHexDigits_facts c (hcs c (List.mem_cons_self _ _))
    have hlt : i / 2 < hash.length := by
      rw [hlen]; simp only [List.length_cons] at hi; omega
    unfold eip55Loop
    rw [List.getElem?_eq_getElem hlt]
    simp only []
    rw [utf8Size_of_ascii c hc.1, ih (fun d hd => hcs d (List.mem_cons_of_mem _ hd)) (i + 1)
      (by simp only [List.length_cons] at hi; omega)]
    simp only [List.enumFrom_cons, List.map_cons, ToUpper, runeToUpper_ascii U c hc.1,
      List.map_nil, Except.ok.injEq]
    have hget : hash.getD (i / 2) 0 = hash[i / 2] := by
      rw [List.getD_eq_getElem?_getD, List.getElem?_eq_getElem hlt]; rfl
    have hnib : (if i % 2 = 0 then hash[i / 2].val >>> 4 else hash[i / 2].val &&& 0x0f) =
        hashNibble hash i := by
      unfold hashNibble
      rw [hget, (byte_nibbles _).1, (byte_nibbles _).2]
    rw [hnib]
    unfold eip55Char
    by_cases hd : '0' ≤ c ∧ c ≤ '9'
    · rw [if_pos hd, if_pos (hc.2.1.mp hd)]
      simp
    · rw [if_neg hd, if_neg (fun h => hd (hc.2.1.mpr h))]
      by_cases hn : hashNibble hash i ≥ 8
      · rw [if_pos hn, if_pos hn]; simp
      · rw [if_neg hn, if_neg hn]; simp
theorem ToLower_hex (U : Unicode) (h : List Char) (hhex : ∀ c ∈ h, c ∈ hexDigits) :
    ToLower U h = h.map asciiToLower := by
  unfold ToLower
  exact List.map_congr_left fun c hc => runeToLower_ascii U c (hexDigits_facts c (hhex c hc)).1

theorem eip55Checksum_prefixed (H : Hashes) (U : Unicode) (h : List Char)
    (hlen : h.length = 40) (hascii : ∀ c ∈ h, c.toNat ≤ 0x7F) :
    eip55Checksum H U ("0x".toList ++ h) =
      eip55Loop U (H.keccak256 (utf8Bytes (ToLower U h))) 0 (ToLower U h) "0x".toList := by
  have hl : utf8Len ("0x".toList ++ h) = 42 := by
    rw [utf8Len_ascii]
    · simp [hlen]
    · intro c hc
      rcases List.mem_append.mp hc with hc | hc
      · exact (show ∀ c ∈ "0x".toList, c.toNat ≤ 0x7F by decide) c hc
      · exact hascii c hc
  have ht : ("0x".toList ++ h).take 2 = "0x".toList := by simp
  have hd : ("0x".toList ++ h).drop 2 = h := by simp
  unfold eip55Checksum slice2Ne0x
  simp only [hl, ne_eq, not_true, if_false, bind, Except.bind, show ¬ (42 < 2) by decide]
  rw [show decide (¬ ("0x".toList ++ h).take 2 = "0x".toList) = false from
    decide_eq_false (not_not.mpr ht)]
  simp only [Bool.false_eq_true, if_false, hd]

theorem map_asciiToLower_lowerHex (h : List Char) (hhex : ∀ c ∈ h, c ∈ hexDigits) :
    ∀ c ∈ h.map asciiToLower, c ∈ lowerHexDigits := by
  intro c hc
  obtain ⟨d, hd, rfl⟩ := List.mem_map.mp hc
  exact (hexDigits_facts d (hhex d hd)).2

theorem eip55Checksum_hex (H : Hashes) (U : Unicode) (h : List Char)
    (hlen : h.length = 40) (hhex : ∀ c ∈ h, c ∈ hexDigits) :
    eip55Checksum H U ("0x".toList ++ h) = .ok (eip55Spec H h) := by
  have hlo := map_asciiToLower_lowerHex h hhex
  rw [eip55Checksum_prefixed H U h hlen (fun c hc => (hexDigits_facts c (hhex c hc)).1),
    ToLower_hex U h hhex, utf8Bytes_lowerHex _ hlo,
    eip55Loop_lowerHex U _ (H.keccak256_length _) _ hlo 0 (by simp [hlen])]
  rfl

/-- C14: for `h` of 40 hexadecimal digits, `eip55Checksum("0x" + h)` succeeds and returns the
42 characters `eip55Spec H h`: `0x`, then for each position `i` the character
`lowercase(h)[i]`, unchanged when it is a digit, uppercased when it is a letter and nibble `i`
of the Keccak-256 hash of the ASCII bytes of `lowercase(h)` is at least 8. -/
theorem eip55Checksum_eq_spec (H : Hashes) (U : Unicode) (h : List Char)
    (hlen : h.length = 40) (hhex : ∀ c ∈ h, c ∈ hexDigits) :
    eip55Checksum H U ("0x".toList ++ h) = .ok (eip55Spec H h) ∧
      (eip55Spec H h).length = 42 :=
  ⟨eip55Checksum_hex H U h hlen hhex, by simp [eip55Spec, hlen]⟩

/-- C14, witness: the all-lowercase address `0x5aaeb6053f3e94c9b9a09f33669435e7ef1beaed`. -/
theorem eip55Checksum_eq_spec_witness :
    eip55Checksum toyHashes toyUnicode
        ("0x".toList ++ "5aaeb6053f3e94c9b9a09f33669435e7ef1beaed".toList) =
      .ok (eip55Spec toyHashes "5aaeb6053f3e94c9b9a09f33669435e7ef1beaed".toList) ∧
      (eip55Spec toyHashes "5aaeb6053f3e94c9b9a09f33669435e7ef1beaed".toList).length = 42 :=
  eip55Checksum_eq_spec toyHashes toyUnicode "5aaeb6053f3e94c9b9a09f33669435e7ef1beaed".toList
    (by decide) (by decide)

theorem eip55Char_cases (hash : List Byte) (i : Nat) (c : Char) :
    eip55Char hash i c = c ∨ eip55Char hash i c = asciiToUpper c := by
  unfold eip55Char
  split
  · exact Or.inl rfl
  · split
    · exact Or.inr rfl
    · exact Or.inl rfl

theorem eip55Char_lower (hash : List Byte) (i : Nat) (c : Char) (hc : c ∈ lowerHexDigits) :
    asciiToLower (eip55Char hash i c) = c ∧ eip55Char hash i c ∈ hexDigits := by
  have hf := lowerHexDigits_facts c hc
  rcases eip55Char_cases hash i c with h | h <;> rw [h]
  · exact ⟨hf.2.2.2.1, hf.2.2.2.2.2.2⟩
  · exact ⟨hf.2.2.2.2.1, hf.2.2.2.2.2.1⟩

theorem eip55_cased_lower (hash : List Byte) (lo : List Char)
    (hlo : ∀ c ∈ lo, c ∈ lowerHexDigits) (i : Nat) :
    ((lo.enumFrom i).map fun p => eip55Char hash p.1 p.2).map asciiToLower = lo ∧
      ∀ d ∈ (lo.enumFrom i).map (fun p => eip55Char hash p.1 p.2), d ∈ hexDigits := by
  induction lo generalizing i with
  | nil => simp
  | cons c t ih =>
    have hc := eip55Char_lower hash i c (hlo c (List.mem_cons_self _ _))
    have ht := ih (fun d hd => hlo d (List.mem_cons_of_mem _ hd)) (i + 1)
    simp only [List.enumFrom_cons, List.map_cons, hc.1, ht.1, List.mem_cons, forall_eq_or_imp,
      true_and]
    exact ⟨hc.2, ht.2⟩

/-- C13: for an address `a` of 42 characters that begins with `0x` and continues with 40
hexadecimal digits, the output of `eip55Checksum(a)` is a fixed point: `eip55Checksum` applied
to it succeeds and returns it unchanged. -/
theorem eip55Checksum_idempotent (H : Hashes) (U : Unicode) (a r : List Char)
    (hlen : a.length = 42) (hpre : a.take 2 = "0x".toList)
    (hhex : ∀ c ∈ a.drop 2, c ∈ hexDigits) (h : eip55Checksum H U a = .ok r) :
    eip55Checksum H U r = .ok r := by
  have ha : a = "0x".toList ++ a.drop 2 := by
    rw [← hpre, List.take_append_drop]
  have hl : (a.drop 2).length = 40 := by simp [hlen]
  rw [ha, eip55Checksum_hex H U _ hl hhex] at h
  have hr := (Except.ok.inj h).symm
  have hlo := map_asciiToLower_lowerHex _ hhex
  have hc := eip55_cased_lower (H.keccak256 (((a.drop 2).map asciiToLower).map asciiByte))
    _ hlo 0
  have he : ∀ l : List Char, l.enum = l.enumFrom 0 := fun _ => rfl
  have hcl : ((((a.drop 2).map asciiToLower).enumFrom 0).map fun p =>
      eip55Char (H.keccak256 (((a.drop 2).map asciiToLower).map asciiByte)) p.1 p.2).length =
      40 := by
    simp [hlen]
  rw [hr]
  unfold eip55Spec
  simp only [he]
  rw [eip55Checksum_hex H U _ hcl hc.2]
  unfold eip55Spec
  simp only [he]
  rw [hc.1]

/-- C13, witness: the all-lowercase address `0x5aaeb6053f3e94c9b9a09f33669435e7ef1beaed`, whose
checksummed form over the stand-in hash is `0x5aaeb6053f3e94c9b9a09f33669435e7ef1Beaed`. -/
theorem eip55Checksum_idempotent_witness :
    eip55Checksum toyHashes toyUnicode "0x5aaeb6053f3e94c9b9a09f33669435e7ef1Beaed".toList =
      .ok "0x5aaeb6053f3e94c9b9a09f33669435e7ef1Beaed".toList :=
  eip55Checksum_idempotent toyHashes toyUnicode
    "0x5aaeb6053f3e94c9b9a09f33669435e7ef1beaed".toList
    "0x5aaeb6053f3e94c9b9a09f33669435e7ef1Beaed".toList (by decide) (by decide) (by decide)
    (by rfl)

/-! ## Base58 (C16) -/

set_option maxRecDepth 100000 in
theorem base58Alphabet_facts : ∀ m, m < 58 →
    base58Alphabet.indexOf (base58Alphabet.getD m '1') = m ∧
      base58Alphabet.getD m '1' ∈ base58Alphabet ∧
      (base58Alphabet.getD m '1' = '1' → m = 0) := by
  decide

theorem base58Value_foldl (s : List Char) (a : Nat) :
    s.foldl (fun acc c => acc * 58 + base58Alphabet.indexOf c) a =
      a * 58 ^ s.length + base58Value s := by
  induction s generalizing a with
  | nil => simp [base58Value]
  | cons x t ih =>
    simp only [List.foldl_cons, base58Value, List.length_cons]
    rw [ih, ih (0 * 58 + base58Alphabet.indexOf x)]
    ring

theorem base58Value_cons (x : Char) (s : List Char) :
    base58Value (x :: s) = base58Alphabet.indexOf x * 58 ^ s.length + base58Value s := by
  simp only [base58Value, List.foldl_cons]
  rw [base58Value_foldl]
  simp [base58Value]

/-- The loop of `base58Encode`, given enough iterations: it stops with `num = 0`, prepends
alphabet characters whose base-58 value is `num`, and the first of them is not the zero
digit. -/
theorem base58Loop_spec (fuel num : Nat) (result : List Char) (h : num < 58 ^ fuel)
    (hres : ∀ c ∈ result, c ∈ base58Alphabet) :
    (base58Loop fuel num result).1 = 0 ∧
      (∀ c ∈ (base58Loop fuel num result).2, c ∈ base58Alphabet) ∧
      base58Value (base58Loop fuel num result).2 =
        num * 58 ^ result.length + base58Value result ∧
      (0 < num → (base58Loop fuel num result).2.head? ≠ some '1' ∧
        (base58Loop fuel num result).2 ≠ []) ∧
      (num = 0 → (base58Loop fuel num result).2 = result) := by
  induction fuel generalizing num result with
  | zero =>
    have h0 : num = 0 := by simpa using h
    subst h0
    simpa [base58Loop] using hres
  | succ k ih =>
    by_cases hn : num > 0
    · have hm : num % 58 < 58 := Nat.mod_lt _ (by decide)
      have hf := base58Alphabet_facts (num % 58) hm
      have hdiv : num / 58 < 58 ^ k := by
        apply Nat.div_lt_of_lt_mul
        rw [pow_succ, Nat.mul_comm] at h
        exact h
      have hres' : ∀ c ∈ base58Alphabet.getD (num % 58) '1' :: result, c ∈ base58Alphabet := by
        intro c hc
        rcases List.mem_cons.mp hc with hc | hc
        · rw [hc]; exact hf.2.1
        · exact hres c hc
      have hstep : base58Loop (k + 1) num result =
          base58Loop k (num / 58) (base58Alphabet.getD (num % 58) '1' :: result) := by
        rw [base58Loop, if_pos hn]
      obtain ⟨i1, i2, i3, i4, i5⟩ := ih (num / 58) _ hdiv hres'
      rw [hstep]
      refine ⟨i1, i2, ?_, fun _ => ?_, fun h0 => absurd h0 (by omega)⟩
      · rw [i3, base58Value_cons, hf.1, List.length_cons, pow_succ]
        conv_rhs => rw [← Nat.div_add_mod num 58]
        ring
      · by_cases hq : num / 58 = 0
        · rw [i5 hq]
          refine ⟨?_, List.cons_ne_nil _ _⟩
          simp only [List.head?_cons, ne_eq, Option.some.injEq]
          intro h1
          have := hf.2.2 h1
          have hlt : num < 58 := by
            by_contra hge
            have := Nat.div_pos (not_lt.mp hge) (by decide : 0 < 58)
            omega
          rw [Nat.mod_eq_of_lt hlt] at this
          omega
        · exact i4 (Nat.pos_of_ne_zero hq)
    · have h0 : num = 0 := by omega
      subst h0
      simpa [base58Loop] using hres

theorem SetBytes_lt_fuel (b : List Byte) : SetBytes b < 58 ^ (2 * b.length) := by
  have h1 := SetBytes_lt b
  have h2 : 256 ^ b.length ≤ (58 ^ 2) ^ b.length := Nat.pow_le_pow_left (by norm_num) _
  rw [← pow_mul] at h2
  omega

/-- C16: the loop of `base58Encode(b)` ends with `num = 0`; the output contains only characters
of the 58-character alphabet; read as base-58 digits, most significant first, it has the
big-endian value of `b`; it does not start with the zero digit `1`; and it is empty exactly
when that value is 0. -/
theorem base58Encode_digits (b : List Byte) :
    (base58Loop (2 * b.length) (SetBytes b) []).1 = 0 ∧
      (∀ c ∈ base58Encode b, c ∈ base58Alphabet) ∧
      base58Value (base58Encode b) = SetBytes b ∧
      (base58Encode b).head? ≠ some '1' ∧
      (base58Encode b = [] ↔ SetBytes b = 0) := by
  obtain ⟨h1, h2, h3, h4, h5⟩ :=
    base58Loop_spec (2 * b.length) (SetBytes b) [] (SetBytes_lt_fuel b) (by simp)
  unfold base58Encode
  refine ⟨h1, h2, ?_, ?_, ?_⟩
  · rw [h3]; simp [base58Value]
  · by_cases h0 : SetBytes b = 0
    · rw [h5 h0]; simp
    · exact (h4 (Nat.pos_of_ne_zero h0)).1
  · constructor
    · intro he
      by_contra h0
      exact (h4 (Nat.pos_of_ne_zero h0)).2 he
    · intro h0
      exact h5 h0

/-! ## P2PKH addresses (C17) -/

/-- C17: `ToP2PKHAddress(pk, isTestnet)` is `base58Encode(v ‖ h ‖ c)` with `v` the byte `0x6F`
on testnet and `0x00` otherwise, `h = RIPEMD160(SHA256(pk.SerializeUnCompressed()))` and `c`
the first 4 bytes of `SHA256(SHA256(v ‖ h))`; the encoded payload has exactly 25 bytes. -/
theorem ToP2PKHAddress_payload (H : Hashes) (pk : PublicKey) (isTestnet : Bool) :
    ToP2PKHAddress H (some pk) isTestnet =
        .ok (base58Encode
          ((if isTestnet then (0x6F : Byte) else 0x00) ::
            H.ripemd160 (H.sha256 pk.SerializeUnCompressed) ++
            (H.sha256 (H.sha256 ((if isTestnet then (0x6F : Byte) else 0x00) ::
              H.ripemd160 (H.sha256 pk.SerializeUnCompressed)))).take 4)) ∧
      ((if isTestnet then (0x6F : Byte) else 0x00) ::
          H.ripemd160 (H.sha256 pk.SerializeUnCompressed) ++
          (H.sha256 (H.sha256 ((if isTestnet then (0x6F : Byte) else 0x00) ::
            H.ripemd160 (H.sha256 pk.SerializeUnCompressed)))).take 4).length = 25 := by
  constructor
  · rfl
  · simp only [List.length_cons, List.length_append, List.length_take, H.ripemd160_length,
      H.sha256_length]
    rfl

/-! ## Bit strings and the word indices of `GenerateMnemonic` (C18, C19) -/

set_option maxRecDepth 100000 in
theorem ByteToBit_byte : ∀ b : Byte,
    ((List.range 8).map fun j =>
      if b.val &&& (1 <<< (7 - j)) % 256 = 0 then '0' else '1') = binaryForm 8 b.val := by
  decide

theorem ByteToBit_eq_bitsOf (bytes : List Byte) : ByteToBit bytes = bitsOf bytes := by
  unfold ByteToBit bitsOf
  exact List.flatMap_congr fun b _ => ByteToBit_byte b

theorem binaryForm_length (width v : Nat) : (binaryForm width v).length = width := by
  induction width generalizing v with
  | zero => rfl
  | succ k ih => simp [binaryForm, ih]

theorem binaryForm_isBits (width v : Nat) : IsBits (binaryForm width v) := by
  induction width generalizing v with
  | zero => intro c hc; cases hc
  | succ k ih =>
    intro c hc
    rw [binaryForm, List.mem_append] at hc
    rcases hc with hc | hc
    · exact ih _ c hc
    · rw [List.mem_singleton] at hc
      rw [hc]
      split
      · exact Or.inl rfl
      · exact Or.inr rfl

theorem bitsOf_length (bytes : List Byte) : (bitsOf bytes).length = 8 * bytes.length := by
  induction bytes with
  | nil => rfl
  | cons b t ih =>
    simp only [bitsOf, List.flatMap_cons, List.length_append, binaryForm_length,
      List.length_cons] at ih ⊢
    omega

theorem bitsOf_isBits (bytes : List Byte) : IsBits (bitsOf bytes) := by
  intro c hc
  unfold bitsOf at hc
  obtain ⟨b, -, hb⟩ := List.mem_flatMap.mp hc
  exact binaryForm_isBits 8 b.val c hb

theorem bitsValue_foldl (s : List Char) (a : Nat) :
    s.foldl (fun acc c => acc * 2 + (if c = '1' then 1 else 0)) a =
      a * 2 ^ s.length + bitsValue s := by
  induction s generalizing a with
  | nil => simp [bitsValue]
  | cons x t ih =>
    simp only [List.foldl_cons, bitsValue, List.length_cons]
    rw [ih, ih (0 * 2 + _)]
    ring

theorem bitsValue_cons (x : Char) (s : List Char) :
    bitsValue (x :: s) = (if x = '1' then 1 else 0) * 2 ^ s.length + bitsValue s := by
  simp only [bitsValue, List.foldl_cons]
  rw [bitsValue_foldl]
  simp [bitsValue]

theorem bitsValue_snoc (s : List Char) (x : Char) :
    bitsValue (s ++ [x]) = bitsValue s * 2 + (if x = '1' then 1 else 0) := by
  simp [bitsValue, List.foldl_append]

theorem bitsValue_lt (s : List Char) : bitsValue s < 2 ^ s.length := by
  induction s with
  | nil => simp [bitsValue]
  | cons x t ih =>
    rw [bitsValue_cons, List.length_cons, pow_succ]
    split <;> omega

/-- The binary form of the value of a bit string is the bit string. -/
theorem binaryForm_bitsValue (s : List Char) (hs : IsBits s) :
    binaryForm s.length (bitsValue s) = s := by
  induction s using List.reverseRecOn with
  | nil => rfl
  | append_singleton t x ih =>
    have ht : IsBits t := fun c hc => hs c (List.mem_append_left _ hc)
    have hx : x = '0' ∨ x = '1' := hs x (List.mem_append_right _ (List.mem_singleton_self x))
    rw [List.length_append, List.length_singleton, binaryForm, bitsValue_snoc]
    rcases hx with hx | hx
    · subst hx
      simp only [show ¬ ('0' = '1') by decide, if_false, Nat.add_zero, Nat.mul_mod_left,
        if_true, Nat.mul_div_cancel _ (by decide : 0 < 2)]
      rw [ih ht]
    · subst hx
      simp only [if_true]
      rw [show (bitsValue t * 2 + 1) / 2 = bitsValue t by omega,
        show (bitsValue t * 2 + 1) % 2 = 1 by omega, ih ht]
      simp

theorem digitValBase_two_bit (c : Char) (hc : c = '0' ∨ c = '1') :
    digitValBase 2 c = some (if c = '1' then 1 else 0) := by
  rcases hc with rfl | rfl <;> rfl

theorem parseUintLoopBase_bits (s : List Char) (hs : IsBits s) (acc : Nat)
    (h : acc * 2 ^ s.length + bitsValue s < 2 ^ 64) :
    parseUintLoopBase 2 s acc = .ok (acc * 2 ^ s.length + bitsValue s) := by
  induction s generalizing acc with
  | nil => simp [parseUintLoopBase, bitsValue]
  | cons x t ih =>
    have hx := hs x (List.mem_cons_self _ _)
    have ht : IsBits t := fun c hc => hs c (List.mem_cons_of_mem _ hc)
    rw [bitsValue_cons, List.length_cons, pow_succ] at h
    have hrw : (acc * 2 + (if x = '1' then 1 else 0)) * 2 ^ t.length + bitsValue t =
        acc * 2 ^ (x :: t).length + bitsValue (x :: t) := by
      rw [bitsValue_cons, List.length_cons, pow_succ]; ring
    have hlt : (acc * 2 + (if x = '1' then 1 else 0)) * 2 ^ t.length + bitsValue t < 2 ^ 64 := by
      rw [hrw, bitsValue_cons, List.length_cons, pow_succ]; exact h
    have hpos : 0 < 2 ^ t.length := pow_pos (by decide) _
    have hsmall : ¬ acc * 2 + (if x = '1' then 1 else 0) ≥ 2 ^ 64 := by
      intro hge
      have := Nat.mul_le_mul_right (2 ^ t.length) hge
      nlinarith
    unfold parseUintLoopBase
    rw [digitValBase_two_bit x hx]
    simp only []
    rw [if_neg hsmall, ih ht _ hlt, hrw]

/-- Parsing a non-empty bit string of at most 62 characters in base 2 gives its value. -/
theorem ParseIntBase_bits (s : List Char) (hs : IsBits s) (hne : s ≠ [])
    (hlen : s.length ≤ 62) : ParseIntBase s 2 = .ok (bitsValue s : Int) := by
  have hv := bitsValue_lt s
  have hp : 2 ^ s.length ≤ 2 ^ 62 := Nat.pow_le_pow_right (by decide) hlen
  match s, hne with
  | c :: cs, _ =>
    have hc := hs c (List.mem_cons_self _ _)
    have hsign : ¬ (c = '+' ∨ c = '-') := by
      rcases hc with rfl | rfl <;> decide
    have hneg : ¬ c = '-' := fun h => hsign (Or.inr h)
    have hloop := parseUintLoopBase_bits (c :: cs) hs 0
      (by rw [Nat.zero_mul, Nat.zero_add]; omega)
    rw [Nat.zero_mul, Nat.zero_add] at hloop
    have h63 : ¬ bitsValue (c :: cs) ≥ 2 ^ 63 := by omega
    unfold ParseIntBase
    have hplus : ¬ c = '+' := fun h => hsign (Or.inl h)
    simp only [hplus, hneg, or_self, if_false, not_false_eq_true, true_and, false_and, hloop]
    rw [if_neg h63]

theorem isBits_take_drop (s : List Char) (hs : IsBits s) (a b : Nat) :
    IsBits ((s.drop a).take b) :=
  fun c hc => hs c (List.mem_of_mem_drop (List.mem_of_mem_take hc))

/-- The number handed to `getWord` for an 11-bit segment is the value of the segment. -/
theorem segment_index (seg : List Char) (hs : IsBits seg) (hlen : seg.length = 11) :
    (match ParseIntBase seg 2 with
      | .ok num => num
      | .error _ => 0) = (bitsValue seg : Int) := by
  have hne : seg ≠ [] := by
    intro h; rw [h] at hlen; cases hlen
  rw [ParseIntBase_bits seg hs hne (by omega)]

theorem wordIndices_eq (s : List Char) : wordIndices s =
    (List.range (s.length / 11)).map fun i =>
      match ParseIntBase ((s.drop (i * 11)).take 11) 2 with
      | .ok num => num
      | .error _ => 0 := rfl

theorem segment_length (s : List Char) (i : Nat) (hi : i < s.length / 11) :
    ((s.drop (i * 11)).take 11).length = 11 := by
  have := Nat.div_mul_le_self s.length 11
  have h2 : (i + 1) * 11 ≤ s.length / 11 * 11 := Nat.mul_le_mul_right 11 hi
  rw [List.length_take, List.length_drop]
  omega

/-- Every number `GenerateMnemonic` hands to `getWord` is the value of an 11-bit segment, hence
in 0..2047. -/
theorem wordIndices_range (s : List Char) (hs : IsBits s) :
    ∀ w ∈ wordIndices s, 0 ≤ w ∧ w < 2048 := by
  intro w hw
  rw [wordIndices_eq] at hw
  obtain ⟨i, hi, rfl⟩ := List.mem_map.mp hw
  rw [List.mem_range] at hi
  have hl := segment_length s i hi
  rw [segment_index _ (isBits_take_drop s hs _ _) hl]
  have hv := bitsValue_lt ((s.drop (i * 11)).take 11)
  rw [hl] at hv
  constructor
  · exact Int.ofNat_nonneg _
  · have : (2 : Nat) ^ 11 = 2048 := by norm_num
    omega

/-- The 11-bit binary forms of the first `k` segment values spell the first `11 k` bits. -/
theorem segments_concat (k : Nat) (s : List Char) (hs : IsBits s) (hk : 11 * k ≤ s.length) :
    ((List.range k).map fun i =>
        match ParseIntBase ((s.drop (i * 11)).take 11) 2 with
        | .ok num => num
        | .error _ => 0).flatMap (fun w => binaryForm 11 w.toNat) = s.take (11 * k) := by
  induction k generalizing s with
  | zero => simp
  | succ k ih =>
    have h0 : (s.take 11).length = 11 := by rw [List.length_take]; omega
    have hb0 : IsBits (s.take 11) := fun c hc => hs c (List.mem_of_mem_take hc)
    have hbd : IsBits (s.drop 11) := fun c hc => hs c (List.mem_of_mem_drop hc)
    have ih' := ih (s.drop 11) hbd (by rw [List.length_drop]; omega)
    have hshift : ∀ i, (s.drop ((i + 1) * 11)) = (s.drop 11).drop (i * 11) := by
      intro i
      rw [List.drop_drop]
      congr 1
      ring
    rw [List.range_succ_eq_map, List.map_cons, List.map_map, List.flatMap_cons]
    simp only [Nat.zero_mul, List.drop_zero, Function.comp_def, Nat.succ_eq_add_one, hshift]
    rw [ih', segment_index _ hb0 h0, Int.toNat_ofNat]
    have hbf := binaryForm_bitsValue (s.take 11) hb0
    rw [h0] at hbf
    rw [hbf, show 11 * (k + 1) = 11 + 11 * k by ring, List.take_add]

theorem getWord_ok (D : Dictionary) (w : Int) (hw : 0 ≤ w ∧ w < 2048) :
    ∃ word, getWord D w = .ok word ∧ word ∈ D.words := by
  have hlt : w.toNat < D.words.length := by
    rw [D.words_length]; omega
  refine ⟨D.words[w.toNat], ?_, List.getElem_mem _⟩
  unfold getWord
  rw [if_pos hw, List.getElem?_eq_getElem hlt]

theorem mapM_getWord_ok (D : Dictionary) (l : List Int) (hl : ∀ w ∈ l, 0 ≤ w ∧ w < 2048) :
    ∃ ws, l.mapM (getWord D) = .ok ws ∧ ws.length = l.length ∧ ∀ x ∈ ws, x ∈ D.words := by
  induction l with
  | nil => exact ⟨[], rfl, rfl, fun x hx => by cases hx⟩
  | cons w t ih =>
    obtain ⟨word, hword, hmem⟩ := getWord_ok D w (hl w (List.mem_cons_self _ _))
    obtain ⟨ws, hws, hlen, hall⟩ := ih (fun x hx => hl x (List.mem_cons_of_mem _ hx))
    refine ⟨word :: ws, ?_, by simp [hlen], ?_⟩
    · rw [List.mapM_cons, hword, hws]
      rfl
    · intro x hx
      rcases List.mem_cons.mp hx with hx | hx
      · rw [hx]; exact hmem
      · exact hall x hx

/-- The checksum and the bit sequence of an entropy of 16 or 32 bytes. -/
theorem sequence_entropy (H : Hashes) (e : List Byte) (he : e.length = 16 ∨ e.length = 32) :
    CalculateChecksum H e = .ok ((bitsOf (H.sha256 e)).take (e.length / 4)) ∧
      IsBits (ByteToBit e ++ (bitsOf (H.sha256 e)).take (e.length / 4)) ∧
      (ByteToBit e ++ (bitsOf (H.sha256 e)).take (e.length / 4)).length =
        11 * (if e.length = 16 then 12 else 24) := by
  have hh : (bitsOf (H.sha256 e)).length = 256 := by
    rw [bitsOf_length, H.sha256_length]
  have hcs : e.length * 8 / 32 = e.length / 4 := by omega
  refine ⟨?_, ?_, ?_⟩
  · unfold CalculateChecksum
    simp only [ByteToBit_eq_bitsOf, hh, hcs]
    rw [if_neg (by omega)]
  · intro c hc
    rw [ByteToBit_eq_bitsOf, List.mem_append] at hc
    rcases hc with hc | hc
    · exact bitsOf_isBits e c hc
    · exact bitsOf_isBits _ c (List.mem_of_mem_take hc)
  · rw [List.length_append, ByteToBit_eq_bitsOf, bitsOf_length, List.length_take, hh]
    rcases he with he | he <;> rw [he] <;> rfl

/-- What `GenerateMnemonic` computes once the entropy is drawn. -/
theorem GenerateMnemonic_of_entropy (R : Random) (H : Hashes) (D : Dictionary) (length : Int)
    (e : List Byte) (he : e.length = 16 ∨ e.length = 32)
    (hent : GenerateEntropy R length = .ok e) :
    GenerateMnemonic R H D length =
      ((wordIndices (ByteToBit e ++ (bitsOf (H.sha256 e)).take (e.length / 4))).mapM
        (getWord D) >>= fun words => pure (Join words " ".toList)) := by
  unfold GenerateMnemonic
  simp only [hent, (sequence_entropy H e he).1, bind, Except.bind]

/-- C19: for an entropy `e` of 16 or 32 bytes, the numbers that `GenerateMnemonic` hands to
`getWord` are `wordIndices` of the sequence `bits(e) ‖ checksum`; each is in 0..2047, so
`getWord` finds a word for it; there are 12 or 24 of them; and their 11-bit big-endian binary
forms, concatenated in order, are the bits of `e` (each byte most significant bit first)
followed by the first `len(e)/4` bits of SHA-256(`e`). -/
theorem wordIndices_entropy (H : Hashes) (D : Dictionary) (e : List Byte)
    (he : e.length = 16 ∨ e.length = 32) :
    (∀ (R : Random) (length : Int), GenerateEntropy R length = .ok e →
      GenerateMnemonic R H D length =
        ((wordIndices (ByteToBit e ++ (bitsOf (H.sha256 e)).take (e.length / 4))).mapM
          (getWord D) >>= fun words => pure (Join words " ".toList))) ∧
    (∀ w ∈ wordIndices (ByteToBit e ++ (bitsOf (H.sha256 e)).take (e.length / 4)),
      0 ≤ w ∧ w ≤ 2047 ∧ ∃ word, getWord D w = .ok word) ∧
    (wordIndices (ByteToBit e ++ (bitsOf (H.sha256 e)).take (e.length / 4))).length =
      (if e.length = 16 then 12 else 24) ∧
    (wordIndices (ByteToBit e ++ (bitsOf (H.sha256 e)).take (e.length / 4))).flatMap
        (fun w => binaryForm 11 w.toNat) =
      bitsOf e ++ (bitsOf (H.sha256 e)).take (e.length / 4) := by
  obtain ⟨-, hbits, hlen⟩ := sequence_entropy H e he
  refine ⟨fun R length hent => GenerateMnemonic_of_entropy R H D length e he hent, ?_, ?_, ?_⟩
  · intro w hw
    have hr := wordIndices_range _ hbits w hw
    obtain ⟨word, hword, -⟩ := getWord_ok D w hr
    exact ⟨hr.1, by omega, word, hword⟩
  · rw [wordIndices_eq, List.length_map, List.length_range, hlen]
    omega
  · rw [wordIndices_eq, hlen, Nat.mul_div_cancel_left _ (by decide : 0 < 11)]
    have hc := segments_concat (if e.length = 16 then 12 else 24) _ hbits (le_of_eq hlen.symm)
    rw [hc, ← hlen, List.take_length, ByteToBit_eq_bitsOf]

/-- C19, witness: the entropy of 16 bytes `0xA5`. -/
theorem wordIndices_entropy_witness :
    (wordIndices (ByteToBit (List.replicate 16 0xA5) ++
        (bitsOf (toyHashes.sha256 (List.replicate 16 0xA5))).take
          ((List.replicate 16 (0xA5 : Byte)).length / 4))).length =
      (if (List.replicate 16 (0xA5 : Byte)).length = 16 then 12 else 24) ∧
    (wordIndices (ByteToBit (List.replicate 16 0xA5) ++
        (bitsOf (toyHashes.sha256 (List.replicate 16 0xA5))).take
          ((List.replicate 16 (0xA5 : Byte)).length / 4))).flatMap
        (fun w => binaryForm 11 w.toNat) =
      bitsOf (List.replicate 16 0xA5) ++
        (bitsOf (toyHashes.sha256 (List.replicate 16 0xA5))).take
          ((List.replicate 16 (0xA5 : Byte)).length / 4) :=
  (wordIndices_entropy toyHashes toyDictionary (List.replicate 16 0xA5) (Or.inl rfl)).2.2

/-! ## Failure and word count of `GenerateMnemonic` (C18) -/

theorem GenerateEntropy_ok (R : Random) (length : Int) (b : List Byte)
    (h : GenerateEntropy R length = .ok b) :
    (length = 128 ∨ length = 256) ∧ (b.length : Int) = length / 8 ∧
      (b.length = 16 ∨ b.length = 32) ∧ (length = 128 ↔ b.length = 16) := by
  unfold GenerateEntropy at h
  split at h
  · cases h
  · rename_i hl
    have hl' : length = 128 ∨ length = 256 := by omega
    split at h
    · cases h
    · rename_i bytes hb
      have hlen := R.Read_length _ _ hb
      rw [Except.ok.inj h] at hlen
      rcases hl' with h1 | h1
      · rw [h1] at hlen ⊢
        have : b.length = 16 := hlen
        refine ⟨Or.inl rfl, ?_, Or.inl this, ?_⟩
        · rw [this]; rfl
        · simp [this]
      · rw [h1] at hlen ⊢
        have : b.length = 32 := hlen
        refine ⟨Or.inr rfl, ?_, Or.inr this, ?_⟩
        · rw [this]; rfl
        · simp [this]

/-- C18: `GenerateEntropy(length)` fails exactly when `length` is neither 128 nor 256 or the
random source fails, and `GenerateMnemonic(length)` fails exactly when `GenerateEntropy` does,
with the same error; on success the entropy has `length/8` bytes and the mnemonic is 12 words
(for 128) or 24 words (for 256) of the dictionary joined by single spaces. -/
theorem GenerateMnemonic_words (R : Random) (H : Hashes) (D : Dictionary) (length : Int) :
    ((∃ err, GenerateEntropy R length = .error err) ↔
      ((length ≠ 128 ∧ length ≠ 256) ∨ R.Read (length / 8).toNat = none)) ∧
    (∀ b, GenerateEntropy R length = .ok b → (b.length : Int) = length / 8) ∧
    (∀ err, GenerateMnemonic R H D length = .error err ↔
      GenerateEntropy R length = .error err) ∧
    (∀ m, GenerateMnemonic R H D length = .ok m →
      ∃ words, m = Join words " ".toList ∧
        words.length = (if length = 128 then 12 else 24) ∧ ∀ w ∈ words, w ∈ D.words) := by
  have hmn : ∀ e, GenerateEntropy R length = .ok e →
      ∃ words, GenerateMnemonic R H D length = .ok (Join words " ".toList) ∧
        words.length = (if length = 128 then 12 else 24) ∧ ∀ w ∈ words, w ∈ D.words := by
    intro e hent
    obtain ⟨-, -, he, hiff⟩ := GenerateEntropy_ok R length e hent
    obtain ⟨-, hbits, hlen⟩ := sequence_entropy H e he
    obtain ⟨ws, hws, hwl, hall⟩ := mapM_getWord_ok D _ (wordIndices_range _ hbits)
    refine ⟨ws, ?_, ?_, hall⟩
    · rw [GenerateMnemonic_of_entropy R H D length e he hent, hws]
      rfl
    · rw [hwl, wordIndices_eq, List.length_map, List.length_range, hlen,
        Nat.mul_div_cancel_left _ (by decide : 0 < 11)]
      by_cases h16 : e.length = 16
      · rw [if_pos h16, if_pos (hiff.mpr h16)]
      · rw [if_neg h16, if_neg (fun h => h16 (hiff.mp h))]
  refine ⟨?_, fun b hb => (GenerateEntropy_ok R length b hb).2.1, ?_, ?_⟩
  · unfold GenerateEntropy
    constructor
    · rintro ⟨err, herr⟩
      by_contra hc
      rw [not_or, not_and_or, not_not, not_not] at hc
      split at herr
      · rename_i hl; omega
      · split at herr
        · rename_i hn; exact hc.2 hn
        · cases herr
    · intro h
      split
      · exact ⟨_, rfl⟩
      · rename_i hl
        rcases h with h | h
        · exact absurd h hl
        · rw [h]; exact ⟨_, rfl⟩
  · intro err
    cases hent : GenerateEntropy R length with
    | error e0 =>
      have : GenerateMnemonic R H D length = .error e0 := by
        unfold GenerateMnemonic
        simp only [hent, bind, Except.bind]
      rw [this]
      constructor <;> intro h <;> rw [Except.error.inj h]
    | ok e =>
      obtain ⟨ws, hws, -, -⟩ := hmn e hent
      rw [hws]
      constructor <;> intro h <;> cases h
  · intro m hm
    cases hent : GenerateEntropy R length with
    | error e0 =>
      have : GenerateMnemonic R H D length = .error e0 := by
        unfold GenerateMnemonic
        simp only [hent, bind, Except.bind]
      rw [this] at hm
      cases hm
    | ok e =>
      obtain ⟨ws, hws, hl, hall⟩ := hmn e hent
      rw [hws] at hm
      exact ⟨ws, (Except.ok.inj hm).symm, hl, hall⟩

/-! ## The loop of `eip55Checksum` on ASCII strings -/

set_option maxRecDepth 100000 in
theorem asciiToLower_ascii_nat : ∀ n, n < 128 → (asciiToLower (Char.ofNat n)).toNat ≤ 0x7F := by
  decide

theorem asciiToLower_ascii (c : Char) (h : c.toNat ≤ 0x7F) : (asciiToLower c).toNat ≤ 0x7F := by
  have := asciiToLower_ascii_nat c.toNat (by omega)
  rwa [Char.ofNat_toNat] at this

theorem eip55Loop_ascii_ok (U : Unicode) (hash : List Byte) (hlen : hash.length = 32)
    (cs : List Char) (hcs : ∀ c ∈ cs, c.toNat ≤ 0x7F) (i : Nat) (hi : i + cs.length ≤ 64)
    (acc : List Char) : ∃ r, eip55Loop U hash i cs acc = .ok r := by
  induction cs generalizing i acc with
  | nil => exact ⟨acc, rfl⟩
  | cons c t ih =>
    have hlt : i / 2 < hash.length := by
      rw [hlen]; simp only [List.length_cons] at hi; omega
    unfold eip55Loop
    rw [List.getElem?_eq_getElem hlt]
    simp only []
    rw [utf8Size_of_ascii c (hcs c (List.mem_cons_self _ _))]
    exact ih (fun d hd => hcs d (List.mem_cons_of_mem _ hd)) (i + 1)
      (by simp only [List.length_cons] at hi; omega) _

/-! ## Validation of public key bytes (C21) -/

set_option maxRecDepth 100000 in
theorem hexByte_facts : ∀ b : Byte,
    (hexByte b).length = 2 ∧ (hexByte b = "02".toList ↔ b = 0x02) ∧
      (hexByte b = "03".toList ↔ b = 0x03) ∧ (hexByte b = "04".toList ↔ b = 0x04) ∧
      ∀ c ∈ hexByte b, c ∈ lowerHexDigits := by
  decide

theorem hexEncodeToString_take_two (b0 : Byte) (t : List Byte) :
    (hexEncodeToString (b0 :: t)).take 2 = hexByte b0 := by
  have h := (hexByte_facts b0).1
  unfold hexEncodeToString
  rw [List.flatMap_cons, List.take_append_of_le_length (by omega), List.take_of_length_le
    (by omega)]

theorem PublicKeyFromByte_of_validate_error (ParsePubKey : List Byte → Option (Nat × Nat))
    (b : List Byte) (e : Error) (h : ValidatePublicKeyByte b = .error e) :
    PublicKeyFromByte ParsePubKey b = .error e := by
  unfold PublicKeyFromByte
  simp only [bind, Except.bind, h]

/-- C21: `ValidatePublicKeyByte(b)` returns an error if and only if `len(b)` is neither 33 nor
65 or the first byte of `b` is none of `0x02`, `0x03`, `0x04` (an empty buffer has no first
byte and fails the length test); `PublicKeyFromByte` returns that same error, whatever the
parser. -/
theorem ValidatePublicKeyByte_error_iff (b : List Byte) :
    ((∃ e, ValidatePublicKeyByte b = .error e) ↔
      ((b.length ≠ 33 ∧ b.length ≠ 65) ∨
        (b.head? ≠ some 0x02 ∧ b.head? ≠ some 0x03 ∧ b.head? ≠ some 0x04))) ∧
    (b.length ≠ 33 ∧ b.length ≠ 65 → ValidatePublicKeyByte b = .error .publicKeyLength) ∧
    (∀ (ParsePubKey : List Byte → Option (Nat × Nat)) (e : Error),
      ValidatePublicKeyByte b = .error e → PublicKeyFromByte ParsePubKey b = .error e) := by
  have hlen : b.length ≠ 33 ∧ b.length ≠ 65 →
      ValidatePublicKeyByte b = .error .publicKeyLength := by
    intro h
    unfold ValidatePublicKeyByte
    rw [if_pos h]
  refine ⟨?_, hlen, fun parse e h => PublicKeyFromByte_of_validate_error parse b e h⟩
  by_cases hl : b.length ≠ 33 ∧ b.length ≠ 65
  · exact ⟨fun _ => Or.inl hl, fun _ => ⟨_, hlen hl⟩⟩
  · match b, hl with
    | [], hl => exact absurd (by decide) hl
    | b0 :: t, hl =>
      have hf := hexByte_facts b0
      have hv : ValidatePublicKeyByte (b0 :: t) =
          if hexByte b0 ≠ "02".toList ∧ hexByte b0 ≠ "03".toList ∧ hexByte b0 ≠ "04".toList
          then .error .publicKeyPrefix else .ok () := by
        unfold ValidatePublicKeyByte
        rw [if_neg hl]
        simp only [hexEncodeToString_take_two]
      have hiff : (hexByte b0 ≠ "02".toList ∧ hexByte b0 ≠ "03".toList ∧
          hexByte b0 ≠ "04".toList) ↔
          ((b0 :: t).head? ≠ some 0x02 ∧ (b0 :: t).head? ≠ some 0x03 ∧
            (b0 :: t).head? ≠ some 0x04) := by
        simp only [List.head?_cons, ne_eq, Option.some.injEq, hf.2.1, hf.2.2.1, hf.2.2.2.1]
      rw [hv]
      constructor
      · rintro ⟨e, he⟩
        right
        rw [← hiff]
        by_contra hc
        rw [if_neg hc] at he
        cases he
      · intro h
        rcases h with h | h
        · exact absurd h hl
        · rw [if_pos (hiff.mpr h)]
          exact ⟨_, rfl⟩

/-! ## Serialising a decoded private key (C23) -/

theorem bigEndian_SetBytes (l : List Byte) : bigEndian l.length (SetBytes l) = l := by
  induction l using List.reverseRecOn with
  | nil => rfl
  | append_singleton t x ih =>
    rw [List.length_append, List.length_singleton, bigEndian, SetBytes_snoc]
    have hx : x.val < 256 := x.isLt
    rw [show (SetBytes t * 256 + x.val) / 256 = SetBytes t by omega, ih]
    congr 2
    apply Fin.ext
    show (SetBytes t * 256 + x.val) % 256 = x.val
    omega

/-- C23: for every buffer `b` accepted by `PrivateKeyFromByte`, `Serialize()` of the resulting
key succeeds and returns exactly `b`, which has 32 bytes and is the big-endian encoding of
`D`. -/
theorem PrivateKey_Serialize_of_bytes (P : Primitives) (b : List Byte) (k : PrivateKey)
    (h : PrivateKeyFromByte P (some b) = .ok k) :
    k.Serialize = .ok b ∧ b.length = 32 ∧ b = bigEndian 32 k.D := by
  obtain ⟨hlen, hD, -⟩ := PrivateKeyFromByte_eq_ok h
  have hlt := SetBytes_lt b
  rw [hlen] at hlt
  have hb := bigEndian_SetBytes b
  rw [hlen] at hb
  refine ⟨?_, hlen, ?_⟩
  · unfold PrivateKey.Serialize FillBytes privateKeySize
    rw [hD, if_pos hlt, hb]
  · rw [hD, hb]

/-- C23, witness: the buffer `80 00 … 00` over the stand-in instance. -/
theorem PrivateKey_Serialize_of_bytes_witness :
    (toyPrivateKey (2 ^ 255)).Serialize = .ok (bigEndian 32 (2 ^ 255)) ∧
      (bigEndian 32 (2 ^ 255)).length = 32 ∧
      bigEndian 32 (2 ^ 255) = bigEndian 32 (toyPrivateKey (2 ^ 255)).D :=
  PrivateKey_Serialize_of_bytes (constPrimitives [1]) (bigEndian 32 (2 ^ 255))
    (toyPrivateKey (2 ^ 255)) (by rfl)

/-! ## The salt argument of `GenerateMasterSeed` (C25) -/

/-- C25: the seed does not depend on the salt argument: for every mnemonic and every two
salts, `GenerateMasterSeed` returns the same seed. -/
theorem GenerateMasterSeed_salt_irrelevant (P : Primitives) (m s1 s2 : List Byte) :
    GenerateMasterSeed P m s1 = GenerateMasterSeed P m s2 := rfl

/-! ## Empty path segments (C28) -/

/-- C28, failing input: on the paths `m/` and `m//0` the loop of `DerivePath` reads `p[0]` of an
empty segment and panics with an index out of range, for every key; on `m/0/` it does so after
deriving index 0, as the stand-in instance shows. -/
theorem DerivePath_panics_on_empty_segment :
    (∀ (P : Primitives) (e : ExtendedKey),
      e.DerivePath P "m/".toList = .error (.panic .indexOutOfRange) ∧
      e.DerivePath P "m//0".toList = .error (.panic .indexOutOfRange) ∧
      e.DerivePath P "m/0/".toList =
        (e.Derive P 0 >>= fun _ => .error (.panic .indexOutOfRange))) ∧
    ExtendedKey.DerivePath (constPrimitives [1])
        ⟨some (toyPrivateKey (2 ^ 255)), none, [], 0, true⟩ "m/0/".toList =
      .error (.panic .indexOutOfRange) ∧
    Error.isPanic (.panic .indexOutOfRange) = true :=
  ⟨fun _ _ => ⟨rfl, rfl, rfl⟩, by rfl, rfl⟩

/-! ## Leading zero bytes in `base58Encode` (C26) -/

theorem base58Loop_fuel (fuel1 fuel2 num : Nat) (result : List Char)
    (h1 : num < 58 ^ fuel1) (h2 : num < 58 ^ fuel2) :
    base58Loop fuel1 num result = base58Loop fuel2 num result := by
  induction fuel1 generalizing fuel2 num result with
  | zero =>
    have h0 : num = 0 := by simpa using h1
    subst h0
    cases fuel2 <;> simp [base58Loop]
  | succ k ih =>
    by_cases hn : num > 0
    · cases fuel2 with
      | zero =>
        have h0 : num = 0 := by simpa using h2
        omega
      | succ j =>
        have hd1 : num / 58 < 58 ^ k := by
          apply Nat.div_lt_of_lt_mul
          rw [pow_succ, Nat.mul_comm] at h1
          exact h1
        have hd2 : num / 58 < 58 ^ j := by
          apply Nat.div_lt_of_lt_mul
          rw [pow_succ, Nat.mul_comm] at h2
          exact h2
        rw [base58Loop, base58Loop, if_pos hn, if_pos hn]
        exact ih j (num / 58) _ hd1 hd2
    · have h0 : num = 0 := by omega
      subst h0
      cases fuel2 <;> simp [base58Loop]

theorem SetBytes_zeros_append (k : Nat) (b : List Byte) :
    SetBytes (List.replicate k 0 ++ b) = SetBytes b := by
  induction k with
  | zero => simp
  | succ k ih =>
    rw [List.replicate_succ, List.cons_append, SetBytes_cons, ih]
    simp

/-- C26: `base58Encode` ignores leading zero bytes: `k` zero bytes followed by `b` encode as
`b` does; in particular the one-byte string `00` and the empty string have the same encoding,
so the encoder is not injective. -/
theorem base58Encode_leading_zeros (b : List Byte) (k : Nat) :
    base58Encode (List.replicate k 0 ++ b) = base58Encode b ∧
      ¬ Function.Injective base58Encode := by
  have key : ∀ (b : List Byte) (k : Nat),
      base58Encode (List.replicate k 0 ++ b) = base58Encode b := by
    intro b k
    unfold base58Encode
    rw [SetBytes_zeros_append]
    have h1 := SetBytes_lt_fuel (List.replicate k 0 ++ b)
    rw [SetBytes_zeros_append] at h1
    rw [base58Loop_fuel _ _ _ _ h1 (SetBytes_lt_fuel b)]
  refine ⟨key b k, fun hinj => ?_⟩
  have h := hinj (key [] 1)
  cases h

/-! ## EIP-155 signature values (C24) -/

/-- C24: for a signer built by `NewEIP155Signer(c)` (nil standing for 0; any `c`, in
particular `c ≥ 0`) and a 65-byte signature whose recovery byte `sig[64]` is 0 or 1,
`SignatureValues` returns `r` and `s` as the big-endian values of `sig[0:32]` and
`sig[32:64]`, and `v = sig[64] + 27` when `c = 0`, `v = sig[64] + 35 + 2c` otherwise. -/
theorem SignatureValues_eip155 (c : Option Int) (sig : List Byte)
    (hlen : sig.length = 65) (hrec : sig.getD 64 0 = 0 ∨ sig.getD 64 0 = 1) :
    (NewEIP155Signer c).SignatureValues sig =
      .ok (SetBytes (sig.take 32), SetBytes ((sig.drop 32).take 32),
        if c.getD 0 = 0 then ((sig.getD 64 0).val : Int) + 27
        else ((sig.getD 64 0).val : Int) + 35 + 2 * c.getD 0) := by
  have hid : (NewEIP155Signer c).chainID = c.getD 0 := by
    cases c <;> rfl
  have hmul : (NewEIP155Signer c).chainIDMul = c.getD 0 * 2 := by
    cases c <;> rfl
  have h64 : sig[64]? = some (sig.getD 64 0) := by
    rw [List.getD_eq_getElem?_getD, List.getElem?_eq_getElem (by omega)]
    rfl
  unfold EIP155Signer.SignatureValues
  rw [h64]
  simp only [hid, hmul]
  rcases hrec with h | h <;> rw [h] <;> by_cases h0 : c.getD 0 = 0
  · simp [h0]
  · simp only [h0, ne_eq, not_false_eq_true, if_true, if_false]
    norm_num
    ring
  · simp [h0]
  · simp only [h0, ne_eq, not_false_eq_true, if_true, if_false]
    norm_num
    ring

set_option maxRecDepth 100000 in
/-- C24, witness: chain id 1 and a signature of 64 zero bytes with recovery byte 1. -/
theorem SignatureValues_eip155_witness :
    (NewEIP155Signer (some 1)).SignatureValues (List.replicate 64 0 ++ [1]) =
      .ok (SetBytes ((List.replicate 64 0 ++ [1]).take 32),
        SetBytes (((List.replicate 64 0 ++ [1]).drop 32).take 32),
        if (some (1 : Int)).getD 0 = 0 then
          ((((List.replicate 64 0 ++ [1] : List Byte).getD 64 0).val : Nat) : Int) + 27
        else ((((List.replicate 64 0 ++ [1] : List Byte).getD 64 0).val : Nat) : Int) + 35 +
          2 * (some (1 : Int)).getD 0) :=
  SignatureValues_eip155 (some 1) (List.replicate 64 0 ++ [1]) (by rfl) (Or.inr (by rfl))

/-! ## The EIP-55 address of a key (C27) -/

theorem hexEncodeToString_length (b : List Byte) :
    (hexEncodeToString b).length = 2 * b.length := by
  induction b with
  | nil => rfl
  | cons x t ih =>
    have h := (hexByte_facts x).1
    simp only [hexEncodeToString, List.flatMap_cons, List.length_append, List.length_cons]
      at ih ⊢
    omega

theorem hexEncodeToString_lowerHex (b : List Byte) :
    ∀ c ∈ hexEncodeToString b, c ∈ lowerHexDigits := by
  intro c hc
  unfold hexEncodeToString at hc
  obtain ⟨x, -, hx⟩ := List.mem_flatMap.mp hc
  exact (hexByte_facts x).2.2.2.2 c hx

/-- C27: for every public key with a 65-byte uncompressed serialization, the intermediate
address is `0x` followed by the 40 lowercase hexadecimal digits of the last 20 bytes of the
Keccak-256 hash of the serialization without its first byte, and `ToEIP55Address` returns,
with no error, its EIP-55 form: a 42-character string that begins with `0x`. -/
theorem ToEIP55Address_ok (H : Hashes) (U : Unicode) (pk : PublicKey)
    (h65 : pk.SerializeUnCompressed.length = 65) :
    ToEIP55Address H U (some pk) =
        eip55Checksum H U ("0x".toList ++
          hexEncodeToString ((H.keccak256 (pk.SerializeUnCompressed.drop 1)).drop 12)) ∧
      (hexEncodeToString ((H.keccak256 (pk.SerializeUnCompressed.drop 1)).drop 12)).length =
        40 ∧
      (∀ c ∈ hexEncodeToString ((H.keccak256 (pk.SerializeUnCompressed.drop 1)).drop 12),
        c ∈ lowerHexDigits) ∧
      ∃ r, ToEIP55Address H U (some pk) = .ok r ∧ r.length = 42 ∧ r.take 2 = "0x".toList := by
  have hl : (hexEncodeToString ((H.keccak256 (pk.SerializeUnCompressed.drop 1)).drop 12)).length
      = 40 := by
    rw [hexEncodeToString_length, List.length_drop, H.keccak256_length]
  have hlo := hexEncodeToString_lowerHex ((H.keccak256 (pk.SerializeUnCompressed.drop 1)).drop 12)
  have hhex : ∀ c ∈ hexEncodeToString ((H.keccak256 (pk.SerializeUnCompressed.drop 1)).drop 12),
      c ∈ hexDigits := fun c hc => (lowerHexDigits_facts c (hlo c hc)).2.2.2.2.2.2
  have hto : ToEIP55Address H U (some pk) =
      eip55Checksum H U ("0x".toList ++
        hexEncodeToString ((H.keccak256 (pk.SerializeUnCompressed.drop 1)).drop 12)) := by
    unfold ToEIP55Address
    simp only [h65, H.keccak256_length, show ¬ (65 < 1) by decide, show ¬ (32 < 20) by decide,
      if_false, show 32 - 20 = 12 by decide]
  refine ⟨hto, hl, hlo, eip55Spec H
    (hexEncodeToString ((H.keccak256 (pk.SerializeUnCompressed.drop 1)).drop 12)), ?_, ?_, ?_⟩
  · rw [hto]
    exact eip55Checksum_hex H U _ hl hhex
  · simp [eip55Spec, hl, -List.drop_one]
  · simp [eip55Spec]

/-- C27, witness: the stand-in public key with coordinates `(5, 0)`. -/
theorem ToEIP55Address_ok_witness :
    ∃ r, ToEIP55Address toyHashes toyUnicode (some (toyPublicKey 5)) = .ok r ∧
      r.length = 42 ∧ r.take 2 = "0x".toList :=
  (ToEIP55Address_ok toyHashes toyUnicode (toyPublicKey 5) (by rfl)).2.2.2

/-! ## Public child derivation (C22) -/

theorem NewPublicKey_some_ok (x y : Nat) (hx : x < 2 ^ 256) (hy : y < 2 ^ 256)
    (hne : ¬ (x = 0 ∧ y = 0)) :
    ∃ pk, NewPublicKey (some x) (some y) = .ok pk ∧ pk.x = x ∧ pk.y = y := by
  have hx' : x < 256 ^ 32 := by norm_num at hx ⊢; exact hx
  have hy' : y < 256 ^ 32 := by norm_num at hy ⊢; exact hy
  unfold NewPublicKey ValidatePublicKeyCoord
  simp only [hne, if_false, bind, Except.bind, pure, Except.pure, FillBytes_of_lt hx',
    FillBytes_of_lt hy']
  exact ⟨_, rfl, rfl, rfl⟩

/-- The HMAC input for a normal child: a 33-byte key followed by the big-endian index. -/
theorem GenerateNormalKeyData_eq (src : List Byte) (i : Nat) (hsrc : src.length = 33)
    (hi : i < 2 ^ 32) : GenerateNormalKeyData src i = src ++ bigEndian 4 i := by
  have h1 : copyAt (make 37) 0 src = src ++ List.replicate 4 0 := by
    unfold copyAt make
    simp only [List.take_zero, List.nil_append, List.length_replicate, Nat.sub_zero,
      Nat.zero_add, hsrc, List.drop_replicate]
    rw [List.take_of_length_le (by omega)]
  have h2 := copyAt_tail src (bigEndian 4 i)
  rw [bigEndian_length, hsrc] at h2
  unfold GenerateNormalKeyData PutUint32
  simp only [h1, Nat.mod_eq_of_lt hi, h2]

/-- C22: for a parent public key with a 33-byte compressed serialization, a chain code `c` and
an index `i < 2^31`, with `I = HMAC-SHA512(c, compressed parent ‖ big-endian i)`,
`IL = I[0:32]`, `IR = I[32:64]` and the library returning coordinates below `2^256`:
`DerivePublicKey` fails if and only if `IL ≥ n` or the point `IL·G + parent` is the `(0, 0)`
sentinel, and otherwise returns that point together with the chain code `IR`. -/
theorem DerivePublicKey_spec (P : Primitives) (parent : PublicKey) (c : List Byte) (i : Nat)
    (hi : i < 2 ^ 31) (hser : parent.Serialize.length = 33)
    (hcoord : (publicChildPoint P parent
        (SetBytes ((publicChildI P parent c i).take 32))).1 < 2 ^ 256 ∧
      (publicChildPoint P parent (SetBytes ((publicChildI P parent c i).take 32))).2 < 2 ^ 256) :
    ((∃ e, DerivePublicKey P (some parent) c i = .error e) ↔
      (SetBytes ((publicChildI P parent c i).take 32) ≥ n ∨
        publicChildPoint P parent (SetBytes ((publicChildI P parent c i).take 32)) = (0, 0))) ∧
    (¬ (SetBytes ((publicChildI P parent c i).take 32) ≥ n ∨
        publicChildPoint P parent (SetBytes ((publicChildI P parent c i).take 32)) = (0, 0)) →
      ∃ child, DerivePublicKey P (some parent) c i =
          .ok (child, (publicChildI P parent c i).drop 32) ∧
        (child.x, child.y) =
          publicChildPoint P parent (SetBytes ((publicChildI P parent c i).take 32))) := by
  have hi' : ¬ i ≥ HardenedOffset := by unfold HardenedOffset; omega
  have hdata := GenerateNormalKeyData_eq parent.Serialize i hser (by omega)
  have hdef : DerivePublicKey P (some parent) c i =
      if SetBytes ((publicChildI P parent c i).take 32) ≥ n then .error .indexValue
      else
        match ValidatePublicKeyCoord
            (some (publicChildPoint P parent
              (SetBytes ((publicChildI P parent c i).take 32))).1)
            (some (publicChildPoint P parent
              (SetBytes ((publicChildI P parent c i).take 32))).2) with
        | .error _ => .error .indexValue
        | .ok _ =>
          NewPublicKey
              (some (publicChildPoint P parent
                (SetBytes ((publicChildI P parent c i).take 32))).1)
              (some (publicChildPoint P parent
                (SetBytes ((publicChildI P parent c i).take 32))).2) >>= fun child =>
            pure (child, (publicChildI P parent c i).drop 32) := by
    unfold DerivePublicKey publicChildI publicChildPoint
    rw [if_neg hi']
    simp only [hdata]
    by_cases hIL : SetBytes ((P.hmacSha512 c (parent.Serialize ++ bigEndian 4 i)).take 32) ≥ n
    · rw [if_pos hIL, if_pos hIL]
    · rw [if_neg hIL, if_neg hIL]
      have hfill := @FillBytes_of_lt _ 32 (lt_trans (not_le.mp hIL) n_lt)
      simp only [privateKeySize, hfill, bind, Except.bind]
  rw [hdef]
  by_cases hIL : SetBytes ((publicChildI P parent c i).take 32) ≥ n
  · rw [if_pos hIL]
    exact ⟨⟨fun _ => Or.inl hIL, fun _ => ⟨_, rfl⟩⟩, fun h => absurd (Or.inl hIL) h⟩
  · rw [if_neg hIL]
    by_cases hzero : publicChildPoint P parent
        (SetBytes ((publicChildI P parent c i).take 32)) = (0, 0)
    · have hv : ValidatePublicKeyCoord
          (some (publicChildPoint P parent
            (SetBytes ((publicChildI P parent c i).take 32))).1)
          (some (publicChildPoint P parent
            (SetBytes ((publicChildI P parent c i).take 32))).2) =
          .error .pointAtInfinity := by
        rw [hzero]; rfl
      rw [hv]
      exact ⟨⟨fun _ => Or.inr hzero, fun _ => ⟨_, rfl⟩⟩, fun h => absurd (Or.inr hzero) h⟩
    · have hne : ¬ ((publicChildPoint P parent
          (SetBytes ((publicChildI P parent c i).take 32))).1 = 0 ∧
          (publicChildPoint P parent
            (SetBytes ((publicChildI P parent c i).take 32))).2 = 0) := by
        intro h
        exact hzero (Prod.ext h.1 h.2)
      have hv : ValidatePublicKeyCoord
          (some (publicChildPoint P parent
            (SetBytes ((publicChildI P parent c i).take 32))).1)
          (some (publicChildPoint P parent
            (SetBytes ((publicChildI P parent c i).take 32))).2) = .ok () := by
        unfold ValidatePublicKeyCoord
        simp only [hne, if_false]
      obtain ⟨child, hchild, hx, hy⟩ := NewPublicKey_some_ok _ _ hcoord.1 hcoord.2 hne
      rw [hv]
      simp only [hchild, bind, Except.bind, pure, Except.pure]
      refine ⟨⟨fun ⟨e, he⟩ => (by cases he), fun h => ?_⟩, fun _ => ⟨child, rfl, ?_⟩⟩
      · rcases h with h | h
        · exact absurd h hIL
        · exact absurd h hzero
      · exact Prod.ext hx hy

set_option maxRecDepth 100000 in
/-- C22, witness: a normal derivation from the stand-in public key `(2^255, 0)`. -/
theorem DerivePublicKey_spec_witness :
    ∃ child, DerivePublicKey (constPrimitives [1]) (some (toyPublicKey (2 ^ 255))) [] 7 =
        .ok (child, (publicChildI (constPrimitives [1]) (toyPublicKey (2 ^ 255)) [] 7).drop 32) ∧
      (child.x, child.y) =
        publicChildPoint (constPrimitives [1]) (toyPublicKey (2 ^ 255))
          (SetBytes ((publicChildI (constPrimitives [1]) (toyPublicKey (2 ^ 255)) [] 7).take
            32)) :=
  (DerivePublicKey_spec (constPrimitives [1]) (toyPublicKey (2 ^ 255)) [] 7 (by decide)
    (by rfl) (by decide)).2 (by decide)

/-! ## `eip55Checksum` on strings that are not valid UTF-8 (C15) -/

theorem DecodeRuneInString_width (s0 : Byte) (rest : List Byte) :
    1 ≤ (DecodeRuneInString (s0 :: rest)).2 ∧
      (DecodeRuneInString (s0 :: rest)).2 ≤ rest.length + 1 := by
  unfold DecodeRuneInString
  repeat' split
  all_goals simp_all

theorem rangeRunes_fuel (fuel1 fuel2 : Nat) (s : List Byte) (h1 : s.length ≤ fuel1)
    (h2 : s.length ≤ fuel2) : rangeRunes fuel1 s = rangeRunes fuel2 s := by
  induction fuel1 generalizing fuel2 s with
  | zero =>
    have : s = [] := List.length_eq_zero.mp (by omega)
    rw [this]
    cases fuel2 <;> rfl
  | succ n ih =>
    cases s with
    | nil => cases fuel2 <;> rfl
    | cons s0 rest =>
      cases fuel2 with
      | zero => simp at h2
      | succ m =>
        have hw := DecodeRuneInString_width s0 rest
        simp only [List.length_cons] at h1 h2
        unfold rangeRunes
        rw [ih m _ (by rw [List.length_drop, List.length_cons]; omega)
          (by rw [List.length_drop, List.length_cons]; omega)]

theorem eip55Loop_out_of_range (U : Unicode) (hash : List Byte) (hlen : hash.length = 32)
    (pre : List Char) (c : Char) (rest : List Char) (i : Nat) (acc : List Char)
    (h : 64 ≤ i + utf8Len pre) :
    eip55Loop U hash i (pre ++ c :: rest) acc = .error (.panic .indexOutOfRange) := by
  induction pre generalizing i acc with
  | nil =>
    simp only [utf8Len, Nat.add_zero] at h
    rw [List.nil_append]
    unfold eip55Loop
    rw [List.getElem?_eq_none (by omega)]
  | cons d t ih =>
    rw [List.cons_append]
    unfold eip55Loop
    cases hb : hash[i / 2]? with
    | none => rfl
    | some b =>
      simp only []
      exact ih _ _ (by simp only [utf8Len] at h; omega)

/-- The loop of `eip55Checksum` can only fail by an index out of range. -/
theorem eip55Loop_error_index (U : Unicode) (hash : List Byte) (cs : List Char) (i : Nat)
    (acc : List Char) (e : Error) (h : eip55Loop U hash i cs acc = .error e) :
    e = .panic .indexOutOfRange := by
  induction cs generalizing i acc with
  | nil => cases h
  | cons c t ih =>
    unfold eip55Loop at h
    split at h
    · rw [← Except.error.inj h]
    · exact ih _ _ h

set_option maxRecDepth 100000 in
theorem toNat_ofNat_ascii : ∀ n, n < 128 → (Char.ofNat n).toNat = n := by
  decide

theorem runes_of_ascii_bytes (s : List Byte) (h : ∀ b ∈ s, b.val < 0x80) :
    runes s = s.map fun b => Char.ofNat b.val := by
  induction s with
  | nil => rfl
  | cons b t ih =>
    have hd : DecodeRuneInString (b :: t) = (Char.ofNat b.val, 1) := by
      rw [DecodeRuneInString, if_pos (h b (List.mem_cons_self _ _))]
    unfold runes
    rw [List.length_cons]
    unfold rangeRunes
    rw [hd]
    have := ih (fun d hd => h d (List.mem_cons_of_mem _ hd))
    unfold runes at this
    simp only [List.drop_succ_cons, List.drop_zero]
    rw [this, List.map_cons]

/-- The decoder on examples: valid encodings of two, three and four bytes give back their code
points, U+FFFD included; an overlong encoding, a surrogate, a truncated encoding and a byte
`0xFF` give one `RuneError` for each byte. -/
theorem runes_examples :
    utf8Bytes [Char.ofNat 0xE9, Char.ofNat 0x20AC, Char.ofNat 0x1F600, RuneError] =
      [0xC3, 0xA9, 0xE2, 0x82, 0xAC, 0xF0, 0x9F, 0x98, 0x80, 0xEF, 0xBF, 0xBD] ∧
    runes [0xC3, 0xA9, 0xE2, 0x82, 0xAC, 0xF0, 0x9F, 0x98, 0x80, 0xEF, 0xBF, 0xBD] =
      [Char.ofNat 0xE9, Char.ofNat 0x20AC, Char.ofNat 0x1F600, RuneError] ∧
    runes [0xC0, 0x80] = [RuneError, RuneError] ∧
    runes [0xED, 0xA0, 0x80] = [RuneError, RuneError, RuneError] ∧
    runes [0xE2, 0x82] = [RuneError, RuneError] ∧
    runes [0xFF, 0x61] = [RuneError, 'a'] ∧
    RuneError.utf8Size = 3 := by
  decide

theorem invalidUtf8Address_runes :
    invalidUtf8Address.length = 42 ∧ invalidUtf8Address.take 2 = asciiBytes "0x" ∧
      runes (invalidUtf8Address.drop 2) =
        List.replicate 22 RuneError ++ 'a' :: List.replicate 17 'a' ∧
      utf8Len (List.replicate 22 RuneError) = 66 := by
  decide

/-- Guards of `eip55Checksum` on every string, valid UTF-8 or not: a length other than 42 gives
the length error, before any slicing; length 42 without the prefix gives the prefix error; the
only other failure is an index out of range in the loop; and a string of 42 ASCII bytes that
begins with `0x` is accepted. -/
theorem eip55ChecksumBytes_guards (H : Hashes) (U : Unicode) (a : List Byte) :
    (a.length ≠ 42 → eip55ChecksumBytes H U a = .error .addressLength) ∧
    (a.length = 42 → a.take 2 ≠ asciiBytes "0x" →
      eip55ChecksumBytes H U a = .error .addressPrefix) ∧
    (a.length = 42 → a.take 2 = asciiBytes "0x" →
      ∀ e, eip55ChecksumBytes H U a = .error e → e = .panic .indexOutOfRange) ∧
    (a.length = 42 → a.take 2 = asciiBytes "0x" → (∀ b ∈ a, b.val < 0x80) →
      ∃ r, eip55ChecksumBytes H U a = .ok r) := by
  have hpre : a.length = 42 → a.take 2 = asciiBytes "0x" →
      eip55ChecksumBytes H U a =
        eip55Loop U (H.keccak256 (utf8Bytes (ToLowerBytes U (a.drop 2)))) 0
          (ToLowerBytes U (a.drop 2)) "0x".toList := by
    intro h1 h2
    unfold eip55ChecksumBytes slice2Ne0xBytes
    simp only [h1, ne_eq, not_true, if_false, bind, Except.bind, show ¬ (42 < 2) by decide]
    rw [show decide (¬ a.take 2 = asciiBytes "0x") = false from
      decide_eq_false (not_not.mpr h2)]
    rfl
  refine ⟨?_, ?_, ?_, ?_⟩
  · intro h
    unfold eip55ChecksumBytes
    rw [if_pos h]
  · intro h1 h2
    unfold eip55ChecksumBytes slice2Ne0xBytes
    simp only [h1, ne_eq, not_true, if_false, bind, Except.bind, show ¬ (42 < 2) by decide]
    rw [decide_eq_true h2]
    rfl
  · intro h1 h2 e he
    rw [hpre h1 h2] at he
    exact eip55Loop_error_index U _ _ _ _ _ he
  · intro h1 h2 hb
    rw [hpre h1 h2]
    have hd : ∀ b ∈ a.drop 2, b.val < 0x80 := fun b hm => hb b (List.mem_of_mem_drop hm)
    have hlo : ∀ c ∈ ToLowerBytes U (a.drop 2), c.toNat ≤ 0x7F := by
      intro c hc
      unfold ToLowerBytes at hc
      rw [runes_of_ascii_bytes _ hd, List.map_map] at hc
      obtain ⟨d, hdm, rfl⟩ := List.mem_map.mp hc
      have hdn : (Char.ofNat d.val).toNat ≤ 0x7F := by
        have := hd d hdm
        rw [toNat_ofNat_ascii _ this]
        omega
      rw [Function.comp_apply, runeToLower_ascii U _ hdn]
      exact asciiToLower_ascii _ hdn
    exact eip55Loop_ascii_ok U _ (H.keccak256_length _) _ hlo 0
      (by
        unfold ToLowerBytes
        rw [runes_of_ascii_bytes _ hd]
        simp [h1]) _

/-! ## Decoding inverts encoding: the two forms of `eip55Checksum` agree on valid UTF-8 -/

theorem lor_high_bits (j t : Nat) (q : Nat) (ht : t = 2 ^ j * q) (y : Nat) (hj : j ≤ 8) :
    (y % 256 &&& (2 ^ j - 1)) ||| t = t + y % 2 ^ j := by
  have h : y % 256 % 2 ^ j = y % 2 ^ j :=
    Nat.mod_mod_of_dvd y (pow_dvd_pow 2 hj : 2 ^ j ∣ 2 ^ 8)
  rw [Nat.and_pow_two_sub_one_eq_mod, h,
    Nat.lor_comm, ht, ← Nat.mul_add_lt_is_or (Nat.mod_lt _ (pow_pos (by decide) _))]

theorem toNat_shift_mask_lor (v : UInt32) (k : UInt32) (hk : k.toNat < 32) (m t : UInt8) :
    ((v >>> k).toUInt8 &&& m ||| t).toNat =
      ((v.toNat >>> k.toNat) % 256 &&& m.toNat) ||| t.toNat := by
  show ((v >>> k).toUInt8.toNat &&& m.toNat) ||| t.toNat = _
  congr 2
  show (v >>> k).toNat % 256 = _
  congr 1
  show v.toNat >>> (k.toNat % 32) = _
  rw [Nat.mod_eq_of_lt hk]

theorem toNat_mask_lor (v : UInt32) (m t : UInt8) :
    (v.toUInt8 &&& m ||| t).toNat = (v.toNat % 256 &&& m.toNat) ||| t.toNat := by
  rfl

theorem utf8Bytes_singleton (c : Char) :
    utf8Bytes [c] =
      if c.toNat ≤ 0x7F then [byteOf c.toNat]
      else if c.toNat ≤ 0x7FF then [byteOf (0xC0 + c.toNat / 64 % 32), byteOf (0x80 + c.toNat % 64)]
      else if c.toNat ≤ 0xFFFF then
        [byteOf (0xE0 + c.toNat / 4096 % 16), byteOf (0x80 + c.toNat / 64 % 64),
          byteOf (0x80 + c.toNat % 64)]
      else
        [byteOf (0xF0 + c.toNat / 262144 % 8), byteOf (0x80 + c.toNat / 4096 % 64),
          byteOf (0x80 + c.toNat / 64 % 64), byteOf (0x80 + c.toNat % 64)] := by
  have e1 : ∀ y, (y % 256 &&& 0x1F) ||| 0xC0 = 0xC0 + y % 32 :=
    fun y => lor_high_bits 5 0xC0 6 (by decide) y (by decide)
  have e2 : ∀ y, (y % 256 &&& 0x3F) ||| 0x80 = 0x80 + y % 64 :=
    fun y => lor_high_bits 6 0x80 2 (by decide) y (by decide)
  have e3 : ∀ y, (y % 256 &&& 0x0F) ||| 0xE0 = 0xE0 + y % 16 :=
    fun y => lor_high_bits 4 0xE0 14 (by decide) y (by decide)
  have e4 : ∀ y, (y % 256 &&& 0x07) ||| 0xF0 = 0xF0 + y % 8 :=
    fun y => lor_high_bits 3 0xF0 30 (by decide) y (by decide)
  have hle : ∀ k : UInt32, c.val ≤ k ↔ c.toNat ≤ k.toNat := fun k => UInt32.le_def
  unfold utf8Bytes
  rw [List.flatMap_cons, List.flatMap_nil, List.append_nil]
  unfold String.utf8EncodeChar
  simp only [hle]
  have hb : ∀ (b : UInt8) (n : Nat), b.toNat = n →
      (⟨b.toNat % 256, Nat.mod_lt _ (by decide)⟩ : Byte) = byteOf n := by
    intro b n h
    rw [h]
    rfl
  have s6 : ∀ y : Nat, y >>> 6 = y / 64 := fun y => Nat.shiftRight_eq_div_pow y 6
  have s12 : ∀ y : Nat, y >>> 12 = y / 4096 := fun y => Nat.shiftRight_eq_div_pow y 12
  have s18 : ∀ y : Nat, y >>> 18 = y / 262144 := fun y => Nat.shiftRight_eq_div_pow y 18
  have b6 : ∀ m t : UInt8, ((c.val >>> 6).toUInt8 &&& m ||| t).toNat =
      (c.toNat / 64) % 256 &&& m.toNat ||| t.toNat := fun m t =>
    (toNat_shift_mask_lor c.val 6 (by decide) m t).trans (by
      show (c.toNat >>> 6) % 256 &&& _ ||| _ = _
      rw [s6])
  have b12 : ∀ m t : UInt8, ((c.val >>> 12).toUInt8 &&& m ||| t).toNat =
      (c.toNat / 4096) % 256 &&& m.toNat ||| t.toNat := fun m t =>
    (toNat_shift_mask_lor c.val 12 (by decide) m t).trans (by
      show (c.toNat >>> 12) % 256 &&& _ ||| _ = _
      rw [s12])
  have b18 : ∀ m t : UInt8, ((c.val >>> 18).toUInt8 &&& m ||| t).toNat =
      (c.toNat / 262144) % 256 &&& m.toNat ||| t.toNat := fun m t =>
    (toNat_shift_mask_lor c.val 18 (by decide) m t).trans (by
      show (c.toNat >>> 18) % 256 &&& _ ||| _ = _
      rw [s18])
  have b0 := fun (m t : UInt8) => toNat_mask_lor c.val m t
  by_cases h1 : c.toNat ≤ 0x7F
  · rw [if_pos (show c.toNat ≤ UInt32.toNat 127 from h1), if_pos h1]
    simp only [List.map_cons, List.map_nil]
    rw [hb c.val.toUInt8 (c.toNat % 256) rfl]
    exact congrArg (fun b => [b]) (Fin.ext (Nat.mod_mod _ _))
  · rw [if_neg (show ¬ c.toNat ≤ UInt32.toNat 127 from h1), if_neg h1]
    by_cases h2 : c.toNat ≤ 0x7FF
    · rw [if_pos (show c.toNat ≤ UInt32.toNat 2047 from h2), if_pos h2]
      simp only [List.map_cons, List.map_nil]
      rw [hb _ _ ((b6 _ _).trans ((e1 _))),
        hb _ _ ((b0 _ _).trans (e2 _))]
      rfl
    · rw [if_neg (show ¬ c.toNat ≤ UInt32.toNat 2047 from h2), if_neg h2]
      by_cases h3 : c.toNat ≤ 0xFFFF
      · rw [if_pos (show c.toNat ≤ UInt32.toNat 65535 from h3), if_pos h3]
        simp only [List.map_cons, List.map_nil]
        rw [hb _ _ ((b12 _ _).trans ((e3 _))),
          hb _ _ ((b6 _ _).trans ((e2 _))),
          hb _ _ ((b0 _ _).trans (e2 _))]
        rfl
      · rw [if_neg (show ¬ c.toNat ≤ UInt32.toNat 65535 from h3), if_neg h3]
        simp only [List.map_cons, List.map_nil]
        rw [hb _ _ ((b18 _ _).trans ((e4 _))),
          hb _ _ ((b12 _ _).trans ((e2 _))),
          hb _ _ ((b6 _ _).trans ((e2 _))),
          hb _ _ ((b0 _ _).trans (e2 _))]
        rfl

theorem shiftLeft_lor (i a b : Nat) (hb : b < 2 ^ i) : a <<< i ||| b = a * 2 ^ i + b := by
  rw [Nat.shiftLeft_eq, Nat.mul_comm, Nat.mul_add_lt_is_or hb]

set_option maxRecDepth 100000 in
theorem utf8_mask_facts : ∀ s : Byte,
    (0xC0 ≤ s.val → s.val ≤ 0xDF → s.val &&& 0x1F = s.val - 0xC0) ∧
    (0x80 ≤ s.val → s.val ≤ 0xBF → s.val &&& 0x3F = s.val - 0x80) ∧
    (0xE0 ≤ s.val → s.val ≤ 0xEF → s.val &&& 0x0F = s.val - 0xE0) ∧
    (0xF0 ≤ s.val → s.val ≤ 0xF7 → s.val &&& 0x07 = s.val - 0xF0) := by
  decide

theorem DecodeRuneInString_two (s0 s1 : Byte) (rest : List Byte) (h0 : 0xC2 ≤ s0.val)
    (h0' : s0.val ≤ 0xDF) (h1 : 0x80 ≤ s1.val) (h1' : s1.val ≤ 0xBF) :
    DecodeRuneInString (s0 :: s1 :: rest) =
      (Char.ofNat ((s0.val - 0xC0) * 64 + (s1.val - 0x80)), 2) := by
  have hf : utf8First s0.val = some (2, 0x80, 0xBF) := by
    unfold utf8First
    rw [if_pos ⟨h0, h0'⟩]
  rw [DecodeRuneInString, if_neg (by omega), hf]
  simp only []
  rw [if_neg (by simp), if_neg (by omega), if_pos (le_refl 2),
    (utf8_mask_facts s0).1 (by omega) h0', (utf8_mask_facts s1).2.1 h1 h1', shiftLeft_lor 6 _ _ (by omega)]
  rfl

theorem DecodeRuneInString_three (s0 s1 s2 : Byte) (rest : List Byte) (lo hi : Nat)
    (hf : utf8First s0.val = some (3, lo, hi)) (h0 : 0xE0 ≤ s0.val) (h0' : s0.val ≤ 0xEF)
    (hlo : lo ≤ s1.val) (hhi : s1.val ≤ hi) (h1 : 0x80 ≤ s1.val) (h1' : s1.val ≤ 0xBF)
    (h2 : 0x80 ≤ s2.val) (h2' : s2.val ≤ 0xBF) :
    DecodeRuneInString (s0 :: s1 :: s2 :: rest) =
      (Char.ofNat ((s0.val - 0xE0) * 4096 + (s1.val - 0x80) * 64 + (s2.val - 0x80)), 3) := by
  rw [DecodeRuneInString, if_neg (by omega), hf]
  simp only []
  have e : (s1.val - 0x80) <<< 6 = (s1.val - 0x80) * 64 := Nat.shiftLeft_eq _ _
  rw [if_neg (by simp), if_neg (by omega), if_neg (by decide), if_neg (by omega),
    if_pos (le_refl 3),
    (utf8_mask_facts s0).2.2.1 h0 h0', (utf8_mask_facts s1).2.1 h1 h1', (utf8_mask_facts s2).2.1 h2 h2',
    e, shiftLeft_lor 12 _ _ (by omega),
    show (s0.val - 0xE0) * 2 ^ 12 + (s1.val - 0x80) * 64 =
      2 ^ 6 * ((s0.val - 0xE0) * 64 + (s1.val - 0x80)) by omega,
    ← Nat.mul_add_lt_is_or (by omega)]
  exact congrArg (fun n => (Char.ofNat n, 3)) (by omega)

theorem DecodeRuneInString_four (s0 s1 s2 s3 : Byte) (rest : List Byte) (lo hi : Nat)
    (hf : utf8First s0.val = some (4, lo, hi)) (h0 : 0xF0 ≤ s0.val) (h0' : s0.val ≤ 0xF7)
    (hlo : lo ≤ s1.val) (hhi : s1.val ≤ hi) (h1 : 0x80 ≤ s1.val) (h1' : s1.val ≤ 0xBF)
    (h2 : 0x80 ≤ s2.val) (h2' : s2.val ≤ 0xBF) (h3 : 0x80 ≤ s3.val) (h3' : s3.val ≤ 0xBF) :
    DecodeRuneInString (s0 :: s1 :: s2 :: s3 :: rest) =
      (Char.ofNat ((s0.val - 0xF0) * 262144 + (s1.val - 0x80) * 4096 + (s2.val - 0x80) * 64 +
        (s3.val - 0x80)), 4) := by
  rw [DecodeRuneInString, if_neg (by omega), hf]
  simp only []
  have e1 : (s1.val - 0x80) <<< 12 = (s1.val - 0x80) * 4096 := Nat.shiftLeft_eq _ _
  have e2 : (s2.val - 0x80) <<< 6 = (s2.val - 0x80) * 64 := Nat.shiftLeft_eq _ _
  rw [if_neg (by simp), if_neg (by omega), if_neg (by decide), if_neg (by omega),
    if_neg (by decide), if_neg (by omega),
    (utf8_mask_facts s0).2.2.2 h0 h0', (utf8_mask_facts s1).2.1 h1 h1', (utf8_mask_facts s2).2.1 h2 h2',
    (utf8_mask_facts s3).2.1 h3 h3',
    e1, e2, shiftLeft_lor 18 _ _ (by omega),
    show (s0.val - 0xF0) * 2 ^ 18 + (s1.val - 0x80) * 4096 =
      2 ^ 12 * ((s0.val - 0xF0) * 64 + (s1.val - 0x80)) by omega,
    ← Nat.mul_add_lt_is_or (by omega),
    show 2 ^ 12 * ((s0.val - 0xF0) * 64 + (s1.val - 0x80)) + (s2.val - 0x80) * 64 =
      2 ^ 6 * (((s0.val - 0xF0) * 64 + (s1.val - 0x80)) * 64 + (s2.val - 0x80)) by omega,
    ← Nat.mul_add_lt_is_or (by omega)]
  exact congrArg (fun n => (Char.ofNat n, 4)) (by omega)

set_option maxRecDepth 100000 in
theorem utf8First_facts : ∀ s : Byte,
    (s.val = 0xE0 → utf8First s.val = some (3, 0xA0, 0xBF)) ∧
    (0xE1 ≤ s.val → s.val ≤ 0xEC → utf8First s.val = some (3, 0x80, 0xBF)) ∧
    (s.val = 0xED → utf8First s.val = some (3, 0x80, 0x9F)) ∧
    (0xEE ≤ s.val → s.val ≤ 0xEF → utf8First s.val = some (3, 0x80, 0xBF)) := by
  decide

set_option maxRecDepth 100000 in
theorem utf8First_facts4 : ∀ s : Byte,
    (s.val = 0xF0 → utf8First s.val = some (4, 0x90, 0xBF)) ∧
    (0xF1 ≤ s.val → s.val ≤ 0xF3 → utf8First s.val = some (4, 0x80, 0xBF)) ∧
    (s.val = 0xF4 → utf8First s.val = some (4, 0x80, 0x8F)) := by
  decide

theorem byteOf_val (n : Nat) (h : n < 256) : (byteOf n).val = n := Nat.mod_eq_of_lt h

theorem utf8Size_eq (c : Char) :
    c.utf8Size =
      if c.toNat ≤ 0x7F then 1 else if c.toNat ≤ 0x7FF then 2
      else if c.toNat ≤ 0xFFFF then 3 else 4 := by
  have hle : ∀ k : UInt32, c.val ≤ k ↔ c.toNat ≤ k.toNat := fun k => UInt32.le_def
  unfold Char.utf8Size
  simp only [hle]
  rfl

theorem isValidChar_toNat (c : Char) :
    c.toNat < 0xD800 ∨ (0xDFFF < c.toNat ∧ c.toNat < 0x110000) := c.valid

/-- Decoding the encoding of a code point gives the code point and the length of the encoding,
whatever follows. -/
theorem DecodeRuneInString_utf8Bytes (c : Char) (rest : List Byte) :
    DecodeRuneInString (utf8Bytes [c] ++ rest) = (c, c.utf8Size) := by
  have hv := isValidChar_toNat c
  rw [utf8Bytes_singleton, utf8Size_eq]
  by_cases h1 : c.toNat ≤ 0x7F
  · rw [if_pos h1, if_pos h1]
    have hs0 : (byteOf c.toNat).val = c.toNat := byteOf_val _ (by omega)
    rw [List.singleton_append, DecodeRuneInString, if_pos (by rw [hs0]; omega), hs0,
      Char.ofNat_toNat]
  · rw [if_neg h1, if_neg h1]
    by_cases h2 : c.toNat ≤ 0x7FF
    · rw [if_pos h2, if_pos h2]
      have hs0 : (byteOf (0xC0 + c.toNat / 64 % 32)).val = 0xC0 + c.toNat / 64 % 32 :=
        byteOf_val _ (by omega)
      have hs1 : (byteOf (0x80 + c.toNat % 64)).val = 0x80 + c.toNat % 64 :=
        byteOf_val _ (by omega)
      rw [List.cons_append, List.singleton_append,
        DecodeRuneInString_two _ _ _ (by rw [hs0]; omega) (by rw [hs0]; omega) (by rw [hs1]; omega)
          (by rw [hs1]; omega), hs0, hs1,
        show (0xC0 + c.toNat / 64 % 32 - 0xC0) * 64 + (0x80 + c.toNat % 64 - 0x80) = c.toNat by
          omega, Char.ofNat_toNat]
    · rw [if_neg h2, if_neg h2]
      by_cases h3 : c.toNat ≤ 0xFFFF
      · rw [if_pos h3, if_pos h3]
        have hs0 : (byteOf (0xE0 + c.toNat / 4096 % 16)).val = 0xE0 + c.toNat / 4096 % 16 :=
          byteOf_val _ (by omega)
        have hs1 : (byteOf (0x80 + c.toNat / 64 % 64)).val = 0x80 + c.toNat / 64 % 64 :=
          byteOf_val _ (by omega)
        have hs2 : (byteOf (0x80 + c.toNat % 64)).val = 0x80 + c.toNat % 64 :=
          byteOf_val _ (by omega)
        have hf : ∃ lo hi, utf8First (byteOf (0xE0 + c.toNat / 4096 % 16)).val =
            some (3, lo, hi) ∧ lo ≤ 0x80 + c.toNat / 64 % 64 ∧
              0x80 + c.toNat / 64 % 64 ≤ hi := by
          have hff := utf8First_facts (byteOf (0xE0 + c.toNat / 4096 % 16))
          rw [hs0] at hff
          rw [hs0]
          by_cases a0 : c.toNat / 4096 % 16 = 0
          · exact ⟨_, _, hff.1 (by omega), by omega, by omega⟩
          · by_cases a1 : c.toNat / 4096 % 16 ≤ 12
            · exact ⟨_, _, hff.2.1 (by omega) (by omega), by omega, by omega⟩
            · by_cases a2 : c.toNat / 4096 % 16 = 13
              · exact ⟨_, _, hff.2.2.1 (by omega), by omega, by omega⟩
              · exact ⟨_, _, hff.2.2.2 (by omega) (by omega), by omega, by omega⟩
        obtain ⟨lo, hi, hf1, hf2, hf3⟩ := hf
        rw [List.cons_append, List.cons_append, List.singleton_append,
          DecodeRuneInString_three _ _ _ _ lo hi hf1 (by rw [hs0]; omega) (by rw [hs0]; omega)
            (by rw [hs1]; exact hf2) (by rw [hs1]; exact hf3) (by rw [hs1]; omega)
            (by rw [hs1]; omega) (by rw [hs2]; omega) (by rw [hs2]; omega), hs0, hs1, hs2,
          show (0xE0 + c.toNat / 4096 % 16 - 0xE0) * 4096 + (0x80 + c.toNat / 64 % 64 - 0x80) * 64
            + (0x80 + c.toNat % 64 - 0x80) = c.toNat by omega, Char.ofNat_toNat]
      · rw [if_neg h3, if_neg h3]
        have hs0 : (byteOf (0xF0 + c.toNat / 262144 % 8)).val = 0xF0 + c.toNat / 262144 % 8 :=
          byteOf_val _ (by omega)
        have hs1 : (byteOf (0x80 + c.toNat / 4096 % 64)).val = 0x80 + c.toNat / 4096 % 64 :=
          byteOf_val _ (by omega)
        have hs2 : (byteOf (0x80 + c.toNat / 64 % 64)).val = 0x80 + c.toNat / 64 % 64 :=
          byteOf_val _ (by omega)
        have hs3 : (byteOf (0x80 + c.toNat % 64)).val = 0x80 + c.toNat % 64 :=
          byteOf_val _ (by omega)
        have hf : ∃ lo hi, utf8First (byteOf (0xF0 + c.toNat / 262144 % 8)).val =
            some (4, lo, hi) ∧ lo ≤ 0x80 + c.toNat / 4096 % 64 ∧
              0x80 + c.toNat / 4096 % 64 ≤ hi := by
          have hff := utf8First_facts4 (byteOf (0xF0 + c.toNat / 262144 % 8))
          rw [hs0] at hff
          rw [hs0]
          by_cases a0 : c.toNat / 262144 % 8 = 0
          · exact ⟨_, _, hff.1 (by omega), by omega, by omega⟩
          · by_cases a1 : c.toNat / 262144 % 8 ≤ 3
            · exact ⟨_, _, hff.2.1 (by omega) (by omega), by omega, by omega⟩
            · exact ⟨_, _, hff.2.2 (by omega), by omega, by omega⟩
        obtain ⟨lo, hi, hf1, hf2, hf3⟩ := hf
        rw [List.cons_append, List.cons_append, List.cons_append, List.singleton_append,
          DecodeRuneInString_four _ _ _ _ _ lo hi hf1 (by rw [hs0]; omega) (by rw [hs0]; omega)
            (by rw [hs1]; exact hf2) (by rw [hs1]; exact hf3) (by rw [hs1]; omega)
            (by rw [hs1]; omega) (by rw [hs2]; omega) (by rw [hs2]; omega)
            (by rw [hs3]; omega) (by rw [hs3]; omega), hs0, hs1, hs2, hs3,
          show (0xF0 + c.toNat / 262144 % 8 - 0xF0) * 262144 +
            (0x80 + c.toNat / 4096 % 64 - 0x80) * 4096 + (0x80 + c.toNat / 64 % 64 - 0x80) * 64
            + (0x80 + c.toNat % 64 - 0x80) = c.toNat by omega, Char.ofNat_toNat]

theorem utf8Bytes_singleton_length (c : Char) : (utf8Bytes [c]).length = c.utf8Size := by
  unfold utf8Bytes
  rw [List.flatMap_cons, List.flatMap_nil, List.append_nil, List.length_map,
    String.length_utf8EncodeChar]

theorem utf8Bytes_length (s : List Char) : (utf8Bytes s).length = utf8Len s := by
  induction s with
  | nil => rfl
  | cons c t ih =>
    rw [utf8Bytes_cons, List.length_append, utf8Bytes_singleton_length, ih, utf8Len]

theorem rangeRunes_utf8Bytes (s : List Char) (fuel : Nat) (h : (utf8Bytes s).length ≤ fuel) :
    rangeRunes fuel (utf8Bytes s) = s := by
  induction s generalizing fuel with
  | nil => cases fuel <;> rfl
  | cons c t ih =>
    have hl := utf8Bytes_singleton_length c
    have hp := utf8Size_pos c
    rw [utf8Bytes_cons, List.length_append, hl] at h
    have hd := DecodeRuneInString_utf8Bytes c (utf8Bytes t)
    rw [utf8Bytes_cons]
    cases hb : utf8Bytes [c] with
    | nil => rw [hb] at hl; simp at hl; omega
    | cons b0 bs =>
      rw [hb] at hd
      cases fuel with
      | zero => omega
      | succ m =>
        rw [List.cons_append] at hd ⊢
        unfold rangeRunes
        rw [hd]
        simp only []
        rw [← List.cons_append, ← hb, List.drop_left' hl, ih m (by omega)]

theorem utf8Bytes_append (s t : List Char) :
    utf8Bytes (s ++ t) = utf8Bytes s ++ utf8Bytes t := by
  unfold utf8Bytes
  rw [List.flatMap_append]

/-- Decoding the UTF-8 encoding of a string of code points gives the string back. -/
theorem runes_utf8Bytes (s : List Char) : runes (utf8Bytes s) = s :=
  rangeRunes_utf8Bytes s _ (le_refl _)

/-- On every valid UTF-8 string, given by its code points, the two forms of `eip55Checksum`
agree. -/
theorem eip55ChecksumBytes_utf8 (H : Hashes) (U : Unicode) (a : List Char) :
    eip55ChecksumBytes H U (utf8Bytes a) = eip55Checksum H U a := by
  have h0x : utf8Bytes "0x".toList = asciiBytes "0x" := by decide
  by_cases h42 : utf8Len a = 42
  · have hpre : (utf8Bytes a).take 2 = asciiBytes "0x" ↔ a.take 2 = "0x".toList := by
      constructor
      · intro h
        have hb : utf8Bytes a = 0x30 :: 0x78 :: (utf8Bytes a).drop 2 := by
          conv_lhs => rw [← List.take_append_drop 2 (utf8Bytes a), h]
          rfl
        have hr := runes_utf8Bytes a
        rw [hb] at hr
        unfold runes at hr
        rw [List.length_cons, List.length_cons] at hr
        unfold rangeRunes at hr
        rw [show DecodeRuneInString (0x30 :: 0x78 :: (utf8Bytes a).drop 2) = ('0', 1) from rfl]
          at hr
        simp only [List.drop_succ_cons, List.drop_zero] at hr
        unfold rangeRunes at hr
        rw [show DecodeRuneInString (0x78 :: (utf8Bytes a).drop 2) = ('x', 1) from rfl] at hr
        rw [← hr]
        rfl
      · intro h
        have ha : a = "0x".toList ++ a.drop 2 := by
          conv_lhs => rw [← List.take_append_drop 2 a, h]
        rw [ha, utf8Bytes_append, h0x]
        rfl
    unfold eip55ChecksumBytes eip55Checksum slice2Ne0xBytes slice2Ne0x
    rw [utf8Bytes_length]
    simp only [h42, ne_eq, not_true, if_false, bind, Except.bind, show ¬ (42 < 2) by decide]
    by_cases hp : a.take 2 = "0x".toList
    · rw [show decide (¬ a.take 2 = "0x".toList) = false from decide_eq_false (not_not.mpr hp),
        show decide (¬ (utf8Bytes a).take 2 = asciiBytes "0x") = false from
          decide_eq_false (not_not.mpr (hpre.mpr hp))]
      simp only [Bool.false_eq_true, if_false]
      have hd : (utf8Bytes a).drop 2 = utf8Bytes (a.drop 2) := by
        have ha : a = "0x".toList ++ a.drop 2 := by
          conv_lhs => rw [← List.take_append_drop 2 a, hp]
        conv_lhs => rw [ha, utf8Bytes_append, h0x]
        rfl
      unfold ToLowerBytes ToLower
      rw [hd, runes_utf8Bytes]
    · rw [decide_eq_true hp,
        decide_eq_true (show ¬ (utf8Bytes a).take 2 = asciiBytes "0x" from
          fun h => hp (hpre.mp h))]
      rfl
  · unfold eip55ChecksumBytes eip55Checksum
    rw [utf8Bytes_length, if_pos h42, if_pos h42]

/-- C15, failing input: `eip55Checksum` on the 42-byte string `0x` + 22 bytes `0xFF` + 18 letters `a` passes
the length test and the prefix test and then panics with an index out of range, whatever the
Keccak-256 function: `strings.ToLower` writes each byte `0xFF` as the three bytes of U+FFFD,
so the lowercased string has 84 bytes, and at byte offset 66 the loop reads `addressHash[33]`
of a 32-byte hash. The claim has this string accepted: its length is 42 and it begins with
`0x`. -/
theorem eip55Checksum_panics_on_invalid_utf8 (H : Hashes) (U : Unicode)
    (hU : U.ToLower RuneError = RuneError) :
    invalidUtf8Address.length = 42 ∧ invalidUtf8Address.take 2 = asciiBytes "0x" ∧
      eip55ChecksumBytes H U invalidUtf8Address = .error (.panic .indexOutOfRange) := by
  obtain ⟨h1, h2, h3, h4⟩ := invalidUtf8Address_runes
  refine ⟨h1, h2, ?_⟩
  have hR : runeToLower U RuneError = RuneError := by
    unfold runeToLower
    rw [if_neg (by decide), hU]
  have ha : runeToLower U 'a' = 'a' := by
    unfold runeToLower
    rw [if_pos (by decide)]
    rfl
  unfold eip55ChecksumBytes slice2Ne0xBytes
  simp only [h1, ne_eq, not_true, if_false, bind, Except.bind, show ¬ (42 < 2) by decide]
  rw [show decide (¬ invalidUtf8Address.take 2 = asciiBytes "0x") = false from
    decide_eq_false (not_not.mpr h2)]
  simp only [Bool.false_eq_true, if_false]
  have hl : ToLowerBytes U (invalidUtf8Address.drop 2) =
      List.replicate 22 RuneError ++ 'a' :: List.replicate 17 'a' := by
    unfold ToLowerBytes
    rw [h3, List.map_append, List.map_replicate, List.map_cons, List.map_replicate, hR, ha]
  rw [hl]
  exact eip55Loop_out_of_range U _ (H.keccak256_length _) _ _ _ 0 _ (by rw [h4]; decide)

/-- C15, the failing input with the stand-in hash and the identity case mapping. -/
theorem eip55Checksum_panics_on_invalid_utf8_witness :
    toyUnicode.ToLower RuneError = RuneError ∧
      invalidUtf8Address.length = 42 ∧ invalidUtf8Address.take 2 = asciiBytes "0x" ∧
      eip55ChecksumBytes toyHashes toyUnicode invalidUtf8Address =
        .error (.panic .indexOutOfRange) :=
  ⟨rfl, eip55Checksum_panics_on_invalid_utf8 toyHashes toyUnicode rfl⟩

end HDWallet
